import Mathlib

/-!
Verification development for the `any-cli-mcp-server` help-text pipeline.

The TypeScript sources are shallowly embedded here:
* `src/utils/parsingHelpers.ts` — section/entry regular expressions (encoded
  as explicit character-list matchers with the same backtracking semantics),
  `parseHelpSections`, `extractMultiLineDescription`, `cleanDescription`,
  `toCamelCase`, `toKebabCase`;
* `src/utils/validation.ts` — `validateCommandName`;
* `src/utils/helpParser.ts` — `extractDescription`, `parseSubcommandsFromText`,
  `parseArgumentsFromText`, `isTerminalCommand`, `parseHelpText`,
  `discoverAllCommands`;
* `src/utils/toolConverter.ts` — `createInputSchema`, `convertCommandToTools`;
* `src/utils/commandExecutor.ts` — the argument reconstruction of `executeCommand`.

JavaScript strings are modelled as Lean `String` (a wrapper around
`List Char`); effectful collaborators (the `parse-help` npm library and the
out-of-process help acquisition) are modelled as oracle parameters returning
`Option` values, `none` standing for a thrown exception or failed spawn.
Concurrency inside a discovery batch only affects scheduling, never the merged
structure, so discovery is modelled sequentially in parse order.
-/

/-- JavaScript whitespace test (the subset of `\s` relevant to ASCII help
text): space, tab, newline, carriage return, vertical tab, form feed. -/
def isJsWs (c : Char) : Bool :=
  c == ' ' || c == '\t' || c == '\n' || c == '\r' || c == '\x0b' || c == '\x0c'

/-- Characters matched by `.` in a JavaScript regex without the `s` flag:
anything except a line terminator. -/
def dotOk (c : Char) : Bool :=
  !(c == '\n' || c == '\r' || c == '\u2028' || c == '\u2029')

/-- The regex class `[a-z]`. -/
def isLowerAZ (c : Char) : Bool :=
  97 ≤ c.toNat && c.toNat ≤ 122

/-- The regex class `[A-Z]`. -/
def isUpperAZ (c : Char) : Bool :=
  65 ≤ c.toNat && c.toNat ≤ 90

/-- The regex class `[0-9]`. -/
def isDigit09 (c : Char) : Bool :=
  48 ≤ c.toNat && c.toNat ≤ 57

/-- Characters allowed after the first one by the command-name pattern
`^[a-z][a-zA-Z0-9_-]*$` (and by the identifier part of `COMMAND_ENTRY`). -/
def isNameChar (c : Char) : Bool :=
  isLowerAZ c || isUpperAZ c || isDigit09 c || c == '_' || c == '-'

/-- The regex class `\w`. -/
def isWordChar (c : Char) : Bool :=
  isLowerAZ c || isUpperAZ c || isDigit09 c || c == '_'

/-- ASCII fragment of JavaScript `String.prototype.toUpperCase`, per char. -/
def jsUpperChar (c : Char) : Char :=
  if isLowerAZ c then Char.ofNat (c.toNat - 32) else c

/-- ASCII fragment of JavaScript `String.prototype.toLowerCase`, per char. -/
def jsLowerChar (c : Char) : Char :=
  if isUpperAZ c then Char.ofNat (c.toNat + 32) else c

/-- JavaScript `toLowerCase` on a character list. -/
def jsLowerChars (l : List Char) : List Char :=
  l.map jsLowerChar

/-- JavaScript `toUpperCase` on a character list. -/
def jsUpperChars (l : List Char) : List Char :=
  l.map jsUpperChar

/-- JavaScript `toLowerCase` on a string. -/
def jsLowerStr (s : String) : String :=
  ⟨jsLowerChars s.data⟩

/-- JavaScript `toUpperCase` on a string. -/
def jsUpperStr (s : String) : String :=
  ⟨jsUpperChars s.data⟩

/-- JavaScript `String.prototype.trim` on a character list: drop whitespace
from both ends. -/
def jsTrimChars (l : List Char) : List Char :=
  ((l.dropWhile isJsWs).reverse.dropWhile isJsWs).reverse

/-- JavaScript `String.prototype.trim`. -/
def jsTrim (s : String) : String :=
  ⟨jsTrimChars s.data⟩

/-- JavaScript `a.startsWith(b)`. -/
def jsStartsWith (s pre : String) : Bool :=
  pre.data.isPrefixOf s.data

/-- JavaScript `a.includes(b)` on character lists (substring search). -/
def containsSub (hay needle : List Char) : Bool :=
  if needle.isPrefixOf hay then true
  else
    match hay with
    | [] => false
    | _ :: t => containsSub t needle

/-- JavaScript `s.includes(t)`. -/
def jsIncludes (s t : String) : Bool :=
  containsSub s.data t.data

/-- JavaScript `s.split(sep)` for a single-character separator, on character
lists.  `[]` input yields `[[]]`, matching `"".split(c) = [""]`. -/
def splitOnChar (sep : Char) : List Char → List (List Char)
  | [] => [[]]
  | c :: rest =>
    if c = sep then [] :: splitOnChar sep rest
    else
      match splitOnChar sep rest with
      | [] => [[c]]
      | h :: t => (c :: h) :: t

/-- JavaScript `helpText.split` at newlines, as a list of strings. -/
def splitLines (s : String) : List String :=
  (splitOnChar '\n' s.data).map String.mk

/-- Helper of `joinSepChars`: the separator-prefixed remainder. -/
def joinSepTail (sep : Char) : List (List Char) → List Char
  | [] => []
  | y :: ys => sep :: (y ++ joinSepTail sep ys)

/-- JavaScript `parts.join(sep)` for a single-character separator, on character lists. -/
def joinSepChars (sep : Char) : List (List Char) → List Char
  | [] => []
  | x :: xs => x ++ joinSepTail sep xs

/-- JavaScript `list.join` with a dash separator, on strings. -/
def hyphenJoin (l : List String) : String :=
  ⟨joinSepChars '-' (l.map String.data)⟩

/-- JavaScript `list.join` with a space separator, on strings. -/
def spaceJoin (l : List String) : String :=
  ⟨joinSepChars ' ' (l.map String.data)⟩

/-- From `src/types/cli.ts`: the `CliOption` interface. -/
structure CliOption where
  name : String
  shortName : Option String
  description : String
  valueRequired : Bool
  valueName : Option String
deriving Repr, DecidableEq

/-- From `src/types/cli.ts`: the `CliArgument` interface. -/
structure CliArgument where
  name : String
  description : String
  required : Bool
deriving Repr, DecidableEq

/-- From `src/types/cli.ts`: the recursive `CliCommand` interface. -/
inductive CliCommand where
  | mk (name description : String) (subcommands : List CliCommand)
      (options : List CliOption) (arguments : List CliArgument)
deriving Repr

/-- Field accessor for `CliCommand.name`. -/
def CliCommand.name : CliCommand → String
  | .mk n _ _ _ _ => n

/-- Field accessor for `CliCommand.description`. -/
def CliCommand.description : CliCommand → String
  | .mk _ d _ _ _ => d

/-- Field accessor for `CliCommand.subcommands`. -/
def CliCommand.subcommands : CliCommand → List CliCommand
  | .mk _ _ s _ _ => s

/-- Field accessor for `CliCommand.options`. -/
def CliCommand.options : CliCommand → List CliOption
  | .mk _ _ _ o _ => o

/-- Field accessor for `CliCommand.arguments`. -/
def CliCommand.arguments : CliCommand → List CliArgument
  | .mk _ _ _ _ a => a

/-- From `parsingHelpers.ts`: the `ParsedSection` interface. -/
structure ParsedSection where
  name : String
  content : List String
deriving Repr, DecidableEq

/-- Case-insensitive literal prefix match.  On success returns the matched
slice of the subject (original case) together with the rest. -/
def ciPrefix : List Char → List Char → Option (List Char × List Char)
  | [], cs => some ([], cs)
  | _ :: _, [] => none
  | p :: ps, c :: cs =>
    if jsLowerChar c = jsLowerChar p then
      match ciPrefix ps cs with
      | some (cap, rest) => some (c :: cap, rest)
      | none => none
    else none

/-- One alternative of the `COMMAND_SECTION` regex: a case-insensitive word,
optionally followed by a greedy `s?`.  Returns the matched slice. -/
def matchSectionAlt (pat : String) (optS : Bool) (cs : List Char) : Option (List Char) :=
  match ciPrefix pat.data cs with
  | none => none
  | some (cap, rest) =>
    if optS then
      match rest with
      | c :: _ => if jsLowerChar c = 's' then some (cap ++ [c]) else some cap
      | [] => some cap
    else some cap

/-- The alternatives of `PATTERNS.COMMAND_SECTION`, in regex order; the
boolean records a trailing `s?`. -/
def commandSectionAlts : List (String × Bool) :=
  [("Command", true), ("Subcommand", true), ("Subgroups", false),
   ("Available command", true), ("CORE COMMANDS", false),
   ("ACTIONS COMMANDS", false), ("ALIAS COMMANDS", false),
   ("ADDITIONAL COMMANDS", false), ("GENERAL COMMANDS", false),
   ("TARGETED COMMANDS", false)]

/-- Try the section alternatives in order at a fixed position. -/
def trySectionAlts : List (String × Bool) → List Char → Option (List Char)
  | [], _ => none
  | (pat, optS) :: rest, cs =>
    match matchSectionAlt pat optS cs with
    | some cap => some cap
    | none => trySectionAlts rest cs

/-- Matcher for `PATTERNS.COMMAND_SECTION`:
`^\s*(Commands?|Subcommands?|Subgroups|Available commands?|CORE COMMANDS|ACTIONS COMMANDS|ALIAS COMMANDS|ADDITIONAL COMMANDS|GENERAL COMMANDS|TARGETED COMMANDS):?`
with the `i` flag; `^` anchors at position 0 only (no `m` flag), `\s*`
greedily skips leading whitespace (including newlines), the trailing `:?` is
vacuous.  Returns the capture group. -/
def matchCommandSection (cs : List Char) : Option (List Char) :=
  trySectionAlts commandSectionAlts (cs.dropWhile isJsWs)

/-- Matches `\s+(.+)` at the start of `r` (greedy `\s+`, backtracking so that
`(.+)` gets at least one non-line-terminator character); returns the capture
of `(.+)`, the maximal `.`-run at the chosen position. -/
def plusWsDotAt (r : List Char) : Nat → Option (List Char)
  | 0 => none
  | j + 1 =>
    match r.drop (j + 1) with
    | c :: rest' =>
      if dotOk c then some (c :: rest'.takeWhile dotOk) else plusWsDotAt r j
    | [] => plusWsDotAt r j

/-- Matches `\s+(.+)` at the start of `r`; see `plusWsDotAt`. -/
def plusWsDot (r : List Char) : Option (List Char) :=
  plusWsDotAt r (r.takeWhile isJsWs).length

/-- One attempt of the `COMMAND_ENTRY` tail `\s*:?\s+(.+)` with `\s*` fixed to
length `i`; the `:?` branch with a colon is preferred (greedy `?`). -/
def entryTailAt (r : List Char) (i : Nat) : Option (List Char) :=
  let r1 := r.drop i
  let viaColon :=
    match r1 with
    | c :: r2 => if c = ':' then plusWsDot r2 else none
    | [] => none
  match viaColon with
  | some cap => some cap
  | none => plusWsDot r1

/-- Backtracking search over the length of `\s*` (greedy, so descending). -/
def entryTailGo (r : List Char) : Nat → Option (List Char)
  | 0 => entryTailAt r 0
  | i + 1 =>
    match entryTailAt r (i + 1) with
    | some cap => some cap
    | none => entryTailGo r i

/-- The tail `\s*:?\s+(.+)` of `PATTERNS.COMMAND_ENTRY`, applied right after
the captured identifier. -/
def entryTail (r : List Char) : Option (List Char) :=
  entryTailGo r (r.takeWhile isJsWs).length

/-- Matcher for `PATTERNS.COMMAND_ENTRY`: `^\s+([a-z][a-zA-Z0-9_-]*)\s*:?\s+(.+)`.
Returns the two capture groups (identifier, description text).  The leading
`\s+` and the identifier are forced maximal: shrinking either leaves a
character that no later regex element can match. -/
def matchCommandEntry (line : List Char) : Option (String × String) :=
  let w := line.takeWhile isJsWs
  if w.isEmpty then none
  else
    match line.drop w.length with
    | c :: rest =>
      if isLowerAZ c then
        let nmRest := rest.takeWhile isNameChar
        match entryTail (rest.drop nmRest.length) with
        | some txt => some (⟨c :: nmRest⟩, ⟨txt⟩)
        | none => none
      else none
    | [] => none

/-- Lazy scan for the body of `PATTERNS.ARGUMENT_ENTRY`: grow the `(.+?)`
capture one character at a time, trying to close with `[>\]]\s+(.+)` as early
as possible. -/
def argEntryGo (acc : List Char) : List Char → Option (String × String)
  | [] => none
  | d :: cs =>
    if !acc.isEmpty && (d = '>' || d = ']') then
      match plusWsDot cs with
      | some cap2 => some (⟨acc⟩, ⟨cap2⟩)
      | none => if dotOk d then argEntryGo (acc ++ [d]) cs else none
    else if dotOk d then argEntryGo (acc ++ [d]) cs else none

/-- Matcher for `PATTERNS.ARGUMENT_ENTRY`: `^\s*[<[](.+?)[>\]]\s+(.+)`.  Returns the two
capture groups (name, description text). -/
def matchArgumentEntry (line : List Char) : Option (String × String) :=
  let w := line.takeWhile isJsWs
  match line.drop w.length with
  | c :: rest => if c = '<' || c = '[' then argEntryGo [] rest else none
  | [] => none

/-- Flush the open section at a header line or at the end of the text. -/
def flushSection : Option ParsedSection → List ParsedSection
  | some s => [s]
  | none => []

/-- Append a content line to the open section, if any. -/
def appendToSection (cur : Option ParsedSection) (line : String) :
    Option ParsedSection :=
  cur.map fun s => ⟨s.name, s.content ++ [line]⟩

/-- The line-fold inside `parseHelpSections`: `cur` is the mutable
`currentSection`; a header line flushes it and opens a new section, other
lines with non-empty trim are appended to the open section. -/
def sectionsGo : List String → Option ParsedSection → List ParsedSection
  | [], cur => flushSection cur
  | line :: rest, cur =>
    match matchCommandSection line.data with
    | some cap =>
      flushSection cur ++ sectionsGo rest (some ⟨⟨jsLowerChars cap⟩, []⟩)
    | none =>
      if jsTrim line ≠ "" then sectionsGo rest (appendToSection cur line)
      else sectionsGo rest cur

/-- From `parsingHelpers.ts` / `parseHelpSections`: split help text into named
sections opened by `COMMAND_SECTION` headers. -/
def parseHelpSections (helpText : String) : List ParsedSection :=
  if helpText = "" then []
  else sectionsGo (splitLines helpText) none

/-- The continuation-line loop of `extractMultiLineDescription`, walking the
lines after `startIndex`; `i` tracks the absolute index of the current line. -/
def multiLineGo : List String → String → Nat → String × Nat
  | [], desc, i => (desc, i - 1)
  | nextLine :: rest, desc, i =>
    let nextTrimmed := jsTrim nextLine
    if nextTrimmed = "" || (matchCommandEntry nextLine.data).isSome
        || (matchCommandSection nextLine.data).isSome then
      (desc, i - 1)
    else if !(nextLine.data.takeWhile isJsWs).isEmpty && nextTrimmed ≠ "" then
      multiLineGo rest (desc ++ " " ++ nextTrimmed) (i + 1)
    else (desc, i - 1)

/-- From `parsingHelpers.ts` / `extractMultiLineDescription`: append subsequent
indented non-entry lines to the description; returns the new description and
the index of the last consumed line. -/
def extractMultiLineDescription (lines : List String) (startIndex : Nat)
    (initialDescription : String) : String × Nat :=
  multiLineGo (lines.drop (startIndex + 1)) initialDescription (startIndex + 1)

/-- From `parsingHelpers.ts` / `cleanDescription`: strip one leading colon. -/
def cleanDescription (description : String) : String :=
  if description = "" then ""
  else if jsStartsWith description ":" then jsTrim (description.drop 1)
  else description

/-- From `parsingHelpers.ts` / `toCamelCase` on characters: the global replace
`dash [a-z]` (regex flags `g`), scanning left to right without overlap. -/
def camelChars : List Char → List Char
  | c :: d :: rest =>
    if c = '-' && isLowerAZ d then jsUpperChar d :: camelChars rest
    else c :: camelChars (d :: rest)
  | [c] => [c]
  | [] => []

/-- From `parsingHelpers.ts` / `toCamelCase`. -/
def toCamelCase (str : String) : String :=
  ⟨camelChars str.data⟩

/-- From `parsingHelpers.ts` / `toKebabCase` on characters: the global replace
`/[A-Z]/g` with a dash plus the lowercased letter. -/
def kebabChars : List Char → List Char
  | [] => []
  | c :: rest =>
    if isUpperAZ c then '-' :: jsLowerChar c :: kebabChars rest
    else c :: kebabChars rest

/-- From `parsingHelpers.ts` / `toKebabCase`. -/
def toKebabCase (str : String) : String :=
  ⟨kebabChars str.data⟩

/-- From `validation.ts`: the `invalidWords` deny-list, verbatim (including the
duplicated entry for the word between `was` and `contents`). -/
def invalidWords : List String :=
  ["of", "the", "and", "or", "to", "from", "for", "with", "by", "in", "on",
   "at", "use", "see", "all", "more", "information", "using", "values",
   "server", "service", "machine", "deprecated", "caches", "catalog",
   "format", "cp", "co", "was", "the", "contents", "certificate", "mislav",
   "command", "subcommand", "option", "flag", "argument", "description",
   "example", "examples", "usage", "help", "version"]

/-- Full match of `^[a-z][a-zA-Z0-9_-]*$` (no `m` flag, so `$` is the true
end of the string). -/
def matchesNamePattern (name : String) : Bool :=
  match name.data with
  | [] => false
  | c :: rest => isLowerAZ c && rest.all isNameChar

/-- From `validation.ts` / `validateCommandName`. -/
def validateCommandName (name : String) : Bool :=
  if name = "" then false
  else if name.length < 2 || name.length > 50 then false
  else if jsIncludes name " " || jsIncludes name "\t" then false
  else if !matchesNamePattern name then false
  else !(invalidWords.contains (jsLowerStr name))

/-- The line scan inside `extractDescription` in `helpParser.ts`. -/
def extractDescGo (commandName : String) : List String → String
  | [] => ""
  | line :: rest =>
    let trimmed := jsTrim line
    if trimmed = "" || trimmed = "Group" || trimmed = "Command" then
      extractDescGo commandName rest
    else if commandName ≠ "" && jsStartsWith trimmed commandName then
      extractDescGo commandName rest
    else if jsStartsWith trimmed "Usage:" || jsStartsWith trimmed "Options:"
        || jsStartsWith trimmed "Commands:" then
      extractDescGo commandName rest
    else if trimmed ≠ "" then trimmed
    else extractDescGo commandName rest

/-- From `helpParser.ts` / `extractDescription`. -/
def extractDescription (helpText commandName : String) : String :=
  if helpText = "" then ""
  else extractDescGo commandName (splitLines helpText)

/-- From `helpParser.ts` / `isTerminalCommand`, first terminal pattern:
`/Usage:.*\n.*Flags:/s` tested by search.  After the earliest `Usage:` there
must be a newline with `Flags:` somewhere after it (with the `s` flag the
dots also match newlines, so only that ordering matters). -/
def usageFlagsAfter (t : List Char) : Bool :=
  match t with
  | [] => false
  | c :: r =>
    if c = '\n' && containsSub r ("Flags:".data) then true
    else usageFlagsAfter r

/-- Search for the first terminal pattern anywhere in the text. -/
def terminalPatOne (cs : List Char) : Bool :=
  if ("Usage:".data).isPrefixOf cs then usageFlagsAfter (cs.drop 6)
  else
    match cs with
    | [] => false
    | _ :: t => terminalPatOne t

/-- From `helpParser.ts` / `isTerminalCommand`, second terminal pattern
`/^Command\s*\n\s+\w+(\s+\w+)+\s+/m` tested at one line start: after the
literal `Command`, the maximal whitespace run must contain a newline that is
not its last character, and must be followed by a word run, a whitespace run,
a second word run and at least one more whitespace character (run-maximality
forces this shape; with fewer than two repetitions no trailing `\s+` fits). -/
def terminalPatTwoHere (cs : List Char) : Bool :=
  if ("Command".data).isPrefixOf cs then
    let r := cs.drop 7
    let w := r.takeWhile isJsWs
    let t0 := r.drop w.length
    let w1 := t0.takeWhile isWordChar
    let t1 := t0.drop w1.length
    let s1 := t1.takeWhile isJsWs
    let t2 := t1.drop s1.length
    let w2 := t2.takeWhile isWordChar
    let t3 := t2.drop w2.length
    w.dropLast.contains '\n' && !w1.isEmpty && !s1.isEmpty && !w2.isEmpty &&
      (match t3 with
       | c :: _ => isJsWs c
       | [] => false)
  else false

/-- Search the second terminal pattern at every line start. -/
def terminalPatTwo : List Char → Bool → Bool
  | [], _ => false
  | l@(c :: t), atStart =>
    (atStart && terminalPatTwoHere l) || terminalPatTwo t (c = '\n')

/-- From `helpParser.ts` / `isTerminalCommand`. -/
def isTerminalCommand (helpText : String) : Bool :=
  if (matchCommandSection helpText.data).isSome then false
  else terminalPatOne helpText.data || terminalPatTwo helpText.data true

/-- The indexed entry loop of `parseSubcommandsFromText` over one section
content list: on a `COMMAND_ENTRY` match with a valid name, consume the
multi-line description and resume after its last line (`i = endIndex` plus
the loop increment); otherwise advance by one.  `fuel` bounds the loop (the
index strictly increases, so `content.length` steps suffice). -/
def scanEntriesGo (content : List String) : Nat → Nat → List CliCommand
  | 0, _ => []
  | fuel + 1, i =>
    match content.get? i with
    | none => []
    | some line =>
      match matchCommandEntry line.data with
      | some (commandName, rest) =>
        if validateCommandName commandName then
          let description := cleanDescription (jsTrim rest)
          let fullAndEnd := extractMultiLineDescription content i description
          CliCommand.mk commandName fullAndEnd.1 [] [] [] ::
            scanEntriesGo content fuel (fullAndEnd.2 + 1)
        else scanEntriesGo content fuel (i + 1)
      | none => scanEntriesGo content fuel (i + 1)

/-- Entry extraction over one section of `parseSubcommandsFromText`. -/
def scanEntries (content : List String) : List CliCommand :=
  scanEntriesGo content content.length 0

/-- From `helpParser.ts` / `parseSubcommandsFromText`. -/
def parseSubcommandsFromText (helpText : String) : List CliCommand :=
  if helpText = "" then []
  else if isTerminalCommand helpText then []
  else
    let sections := parseHelpSections helpText
    let commandSections := sections.filter fun s =>
      let n := jsLowerStr s.name
      containsSub n.data ("command".data) || containsSub n.data ("subgroup".data)
        || n = "subgroups"
    (commandSections.map fun s => scanEntries s.content).flatten

/-- From `helpParser.ts` / `parseArgumentsFromText`. -/
def parseArgumentsFromText (helpText : String) : List CliArgument :=
  if helpText = "" then []
  else
    let sections := parseHelpSections helpText
    let argSections := sections.filter fun s =>
      containsSub s.name.data ("argument".data) || s.name = "args"
    (argSections.map fun s =>
      s.content.filterMap fun line =>
        match matchArgumentEntry line.data with
        | some (nm, txt) =>
          some (CliArgument.mk nm (jsTrim txt) (jsIncludes line "<"))
        | none => none).flatten

/-- The shape of one flag reported by the external `parse-help` library. -/
structure ParsedFlag where
  aliasName : Option String
  type : Option String
  description : Option String
deriving Repr, DecidableEq

/-- The result shape of the external `parse-help` library. -/
structure ParsedHelp where
  description : Option String
  flags : List (String × ParsedFlag)
deriving Repr, DecidableEq

/-- Convert one `parse-help` flag into a `CliOption`, as in the loop inside
`parseHelpText`. -/
def flagToOption (flagName : String) (fd : ParsedFlag) : CliOption :=
  { name := "--" ++ flagName
    shortName := fd.aliasName.map (fun a => "-" ++ a)
    description := fd.description.getD ""
    valueRequired := decide (fd.type ≠ some "boolean" ∧ fd.type ≠ none)
    valueName := if fd.type = some "string" then some "value" else none }

/-- From `helpParser.ts` / `parseHelpText`.  The external `parse-help` call is the
oracle `ph`; `ph helpText = none` models the library throwing, which the
source catches, falling back to the text-based extractors with empty
options. -/
def parseHelpText (ph : String → Option ParsedHelp)
    (helpText commandName : String) : CliCommand :=
  if helpText = "" || commandName = "" then
    CliCommand.mk (if commandName = "" then "unknown" else commandName)
      "" [] [] []
  else
    match ph helpText with
    | some parsed =>
      CliCommand.mk commandName
        (match parsed.description with
         | some d => if d = "" then extractDescription helpText commandName else d
         | none => extractDescription helpText commandName)
        (parseSubcommandsFromText helpText)
        (parsed.flags.map fun p => flagToOption p.1 p.2)
        (parseArgumentsFromText helpText)
    | none =>
      CliCommand.mk commandName
        (extractDescription helpText commandName)
        (parseSubcommandsFromText helpText)
        []
        (parseArgumentsFromText helpText)

/-- One property of a JSON-schema-like input schema. -/
structure PropDef where
  type : String
  description : String
deriving Repr, DecidableEq

/-- From `toolConverter.ts`: the object-shaped input schema (`properties` keeps
JavaScript object key semantics: first-insertion position, later assignment
overwrites in place). -/
structure InputSchema where
  properties : List (String × PropDef)
  required : Option (List String)
deriving Repr, DecidableEq

/-- From `src/types/cli.ts`: the `McpTool` interface. -/
structure McpTool where
  name : String
  description : String
  inputSchema : InputSchema
deriving Repr, DecidableEq

/-- JavaScript object assignment `obj[k] = v`: overwrite in place if the key
exists, otherwise append. -/
def jsObjSet : List (String × PropDef) → String → PropDef → List (String × PropDef)
  | [], k, v => [(k, v)]
  | (k', v') :: rest, k, v =>
    if k' = k then (k, v) :: rest else (k', v') :: jsObjSet rest k v

/-- From `toolConverter.ts` / `createPropertyDefinition`. -/
def createPropertyDefinition (type description : String) : PropDef :=
  { type := type, description := description }

/-- From `toolConverter.ts` / `addOptionToSchema`: derive the camelCase property
(and the alias property for a short form). -/
def addOptionToSchema (properties : List (String × PropDef)) (option : CliOption) :
    List (String × PropDef) :=
  let propName := toCamelCase
    (if jsStartsWith option.name "--" then option.name.drop 2 else option.name)
  let type := if option.valueRequired then "string" else "boolean"
  let properties := jsObjSet properties propName
    (createPropertyDefinition type option.description)
  match option.shortName with
  | some short =>
    let shortPropName := if jsStartsWith short "-" then short.drop 1 else short
    jsObjSet properties shortPropName
      (createPropertyDefinition type ("Alias for " ++ propName))
  | none => properties

/-- The positional-argument loop of `createInputSchema`, threading the
`properties` object and the `required` list. -/
def addArgsToSchema : List (String × PropDef) → List String → List CliArgument →
    List (String × PropDef) × List String
  | properties, required, [] => (properties, required)
  | properties, required, arg :: rest =>
    let propName := toCamelCase arg.name
    let properties := jsObjSet properties propName
      (createPropertyDefinition "string" arg.description)
    let required := if arg.required then required ++ [propName] else required
    addArgsToSchema properties required rest

/-- From `toolConverter.ts` / `createInputSchema`. -/
def createInputSchema (command : CliCommand) : InputSchema :=
  let properties := command.options.foldl addOptionToSchema []
  let propsAndReq := addArgsToSchema properties [] command.arguments
  { properties := propsAndReq.1
    required := if propsAndReq.2.length > 0 then some propsAndReq.2 else none }

/-- The inner merge loop of `convertCommandToTools`: push each sub-tool whose
name has not been seen, recording it as seen. -/
def mergeToolList : List McpTool → List McpTool × List String → List McpTool × List String
  | [], acc => acc
  | t :: ts, (tools, seen) =>
    if seen.contains t.name then mergeToolList ts (tools, seen)
    else mergeToolList ts (tools ++ [t], t.name :: seen)

mutual

/-- From `toolConverter.ts` / `convertCommandToTools`.  The root call
(`parentPath = []`) emits the base-command tool; other calls emit the
hyphen-joined path tool when the filtered path is non-empty (the local
`seenNames` set is empty at that check, so it never blocks); sub-results are
merged first-seen-wins against the accumulated `seenNames`. -/
def convertCommandToTools : CliCommand → String → List String → List McpTool
  | CliCommand.mk nm ds subs opts args, baseCommand, parentPath =>
    let command := CliCommand.mk nm ds subs opts args
    let currentPath := (parentPath ++ [nm]).filter (· ≠ baseCommand)
    let start : List McpTool × List String :=
      if parentPath.isEmpty then
        ([{ name := baseCommand
            description :=
              if ds = "" then "Execute " ++ baseCommand ++ " command" else ds
            inputSchema := createInputSchema command }], [baseCommand])
      else if !currentPath.isEmpty then
        let toolName := hyphenJoin currentPath
        ([{ name := toolName
            description :=
              if ds = "" then "Execute " ++ toolName ++ " command" else ds
            inputSchema := createInputSchema command }], [toolName])
      else ([], [])
    if subs.length > 0 && parentPath.length < 10 then
      (convertSubs subs baseCommand (parentPath ++ [nm]) start).1
    else start.1

/-- The subcommand loop of `convertCommandToTools`. -/
def convertSubs : List CliCommand → String → List String →
    List McpTool × List String → List McpTool × List String
  | [], _, _, acc => acc
  | s :: rest, baseCommand, childPath, acc =>
    convertSubs rest baseCommand childPath
      (mergeToolList (convertCommandToTools s baseCommand childPath) acc)

end

/-- JavaScript values that can appear in the `args` record handed to
`executeCommand`: strings, booleans, arrays of strings (the `_raw` token
list) and `null` (standing for `null`/`undefined`, both skipped). -/
inductive JsVal where
  | str (s : String)
  | bool (b : Bool)
  | arr (l : List String)
  | null
deriving Repr, DecidableEq

/-- From `commandExecutor.ts` / `isPositionalArg`: a camelCase key is judged
positional when it does not start (case-insensitively) with a boolean-ish
prefix, has no underscore, is longer than one character and is not entirely
upper-case. -/
def isPositionalArg (key : String) : Bool :=
  let lower := jsLowerChars key.data
  !(("is".data).isPrefixOf lower || ("has".data).isPrefixOf lower
      || ("with".data).isPrefixOf lower || ("no".data).isPrefixOf lower
      || ("enable".data).isPrefixOf lower || ("disable".data).isPrefixOf lower)
    && !(jsIncludes key "_") && key.length > 1 && key ≠ jsUpperStr key

/-- From `commandExecutor.ts` / `addBooleanFlag`. -/
def addBooleanFlag (cmdArgs : List String) (key flagName : String) (value : Bool) :
    List String :=
  if value then
    if key.length = 1 then cmdArgs ++ ["-" ++ key]
    else cmdArgs ++ ["--" ++ flagName]
  else cmdArgs

/-- From `commandExecutor.ts` / `addValuedOption`. -/
def addValuedOption (cmdArgs : List String) (key flagName value : String) :
    List String :=
  if key.length = 1 then cmdArgs ++ ["-" ++ key, value]
  else if isPositionalArg key then cmdArgs ++ [value]
  else cmdArgs ++ ["--" ++ flagName, value]

/-- JavaScript `String(value)` for the values `addValuedOption` receives. -/
def jsStringOf : JsVal → String
  | .str s => s
  | .bool b => if b then "true" else "false"
  | .arr l => String.intercalate "," l
  | .null => "null"

/-- The `Object.entries(args)` loop of `executeCommand` (entries iterate in
insertion order). -/
def executeArgsLoop (cmdArgs : List String) : List (String × JsVal) → List String
  | [] => cmdArgs
  | (key, value) :: rest =>
    match value with
    | .null => executeArgsLoop cmdArgs rest
    | .bool b => executeArgsLoop (addBooleanFlag cmdArgs key (toKebabCase key) b) rest
    | v => executeArgsLoop
        (addValuedOption cmdArgs key (toKebabCase key) (jsStringOf v)) rest

/-- From `commandExecutor.ts` / `executeCommand`, reduced to the token sequence it
hands to `runProcess` (`none` models the early error result for an empty or
blank base command).  A `_raw` array value short-circuits to raw passthrough;
otherwise the tool name is split on dashes to recover the subcommand path
(dropped when its first segment equals the base command) and each remaining
entry is reconstructed as a flag, short flag, or bare positional value. -/
def executeCommandArgs (baseCommand toolName : String)
    (args : List (String × JsVal)) : Option (List String) :=
  if baseCommand = "" || jsTrim baseCommand = "" then none
  else
    match (args.lookup "_raw").bind (fun v =>
        match v with
        | JsVal.arr l => some l
        | _ => none) with
    | some raw => some raw
    | none =>
      let commandParts := (splitOnChar '-' toolName.data).map String.mk
      let cmdArgs :=
        if commandParts.length > 0 && commandParts.headD "" ≠ baseCommand then
          commandParts
        else []
      some (executeArgsLoop cmdArgs args)

/-- From `helpParser.ts` / `discoverAllCommands`: the key of the memo table. -/
def discoverKey (command : String) (args : List String) : String :=
  jsTrim ⟨command.data ++ ' ' :: (spaceJoin args).data⟩

/-- The default empty node the discovery engine substitutes on a failed or
out-of-depth expansion (`args[args.length - 1] || command`). -/
def defaultNode (command : String) (args : List String) : CliCommand :=
  CliCommand.mk
    (match args.getLast? with
     | some s => if s = "" then command else s
     | none => command)
    "" [] [] []

/-- The in-place merge of one expanded subcommand onto its stub: children,
options and arguments are copied, the description only if the stub had
none. -/
def mergeStub (stub subParsed : CliCommand) : CliCommand :=
  CliCommand.mk stub.name
    (if stub.description = "" && subParsed.description ≠ "" then
      subParsed.description
     else stub.description)
    subParsed.subcommands subParsed.options subParsed.arguments

/-- Replace the subcommand list of a node. -/
def withSubcommands (c : CliCommand) (subs : List CliCommand) : CliCommand :=
  CliCommand.mk c.name c.description subs c.options c.arguments

/-- The subcommand expansion loop of `discover`, merging each expanded child
onto its stub in order; `next` is the one-level-deeper discovery call
(applied to the extended path and the threaded memo table). -/
def expandSubs
    (next : List String → List (String × CliCommand) →
      CliCommand × List (String × CliCommand))
    (args : List String) :
    List CliCommand → List (String × CliCommand) →
    List CliCommand × List (String × CliCommand)
  | [], memo => ([], memo)
  | stub :: rest, memo =>
    let sub := next (args ++ [stub.name]) memo
    let tail := expandSubs next args rest sub.2
    (mergeStub stub sub.1 :: tail.1, tail.2)

/-- From `helpParser.ts` / `discoverAllCommands`, the inner `discover` function.
`help` abstracts `getCommandHelp` (an out-of-process call; `none` is any
acquisition failure, caught by the source and turned into a default node),
`ph` abstracts the `parse-help` library as in `parseHelpText`.  The memo
table is an association list keyed by the space-joined path; entries are
shadowed by re-insertion after the merge, matching the in-place mutation of
the memoised object.  Batched concurrent expansion is modelled sequentially
in parse order, which is the order the merged structure reflects.  `fuel`
only bounds the recursion; the top-level call supplies `maxDepth + 1`, which
the depth guard never exhausts. -/
def discoverGo (help : String → List String → Option String)
    (ph : String → Option ParsedHelp) (maxDepth : Nat) :
    Nat → String → List String → Nat → List (String × CliCommand) →
    CliCommand × List (String × CliCommand)
  | 0, command, args, _, memo => (defaultNode command args, memo)
  | fuel + 1, command, args, depth, memo =>
    let key := discoverKey command args
    match memo.lookup key with
    | some v => (v, memo)
    | none =>
      if depth > maxDepth then (defaultNode command args, memo)
      else
        match help command args with
        | none => (defaultNode command args, memo)
        | some helpText =>
          let commandNameForParsing :=
            if depth = 0 then command
            else
              match args.getLast? with
              | some s => if s = "" then command else s
              | none => command
          let parsedCommand := parseHelpText ph helpText commandNameForParsing
          let memo1 := (key, parsedCommand) :: memo
          if depth < maxDepth then
            let expanded := expandSubs
              (fun a m => discoverGo help ph maxDepth fuel command a (depth + 1) m)
              args parsedCommand.subcommands memo1
            let final := withSubcommands parsedCommand expanded.1
            (final, (key, final) :: expanded.2)
          else (parsedCommand, memo1)

/-- From `helpParser.ts` / `discoverAllCommands` (the returned root). -/
def discoverAllCommands (help : String → List String → Option String)
    (ph : String → Option ParsedHelp) (baseCommand : String)
    (maxDepth : Nat := 2) : CliCommand :=
  (discoverGo help ph maxDepth (maxDepth + 1) baseCommand [] 0 []).1

mutual

/-- Height of a command tree: the longest path length from the node down to
any descendant (a leaf has height 0); a node at path length `k` from the
root exists exactly when the root height is at least `k`. -/
def commandHeight : CliCommand → Nat
  | CliCommand.mk _ _ subs _ _ => subsHeight subs

/-- One plus the maximal height over a list of children (0 when empty). -/
def subsHeight : List CliCommand → Nat
  | [] => 0
  | c :: rest => max (1 + commandHeight c) (subsHeight rest)

end

/-- Specification-side restatement of the name-validation rule (C7): a name
is accepted unless it is empty, shorter than 2 or longer than 50 characters,
contains whitespace, fails `^[a-z][a-zA-Z0-9_-]*$`, or case-insensitively
matches the deny-list. -/
def specValidName (name : String) : Prop :=
  name ≠ "" ∧ 2 ≤ name.length ∧ name.length ≤ 50 ∧
    (∀ c ∈ name.data, isJsWs c = false) ∧ matchesNamePattern name = true ∧
    jsLowerStr name ∉ invalidWords

/-- Specification-side restatement of the description-extraction skip rule
(C8, amended): a line is skipped when its trim is blank, is a generic header,
begins with the command name (for a non-empty command name), or begins with
`Usage:`, `Options:` or `Commands:`. -/
def specSkipLine (commandName line : String) : Bool :=
  let trimmed := jsTrim line
  trimmed = "" || trimmed = "Group" || trimmed = "Command"
    || (commandName ≠ "" && jsStartsWith trimmed commandName)
    || jsStartsWith trimmed "Usage:" || jsStartsWith trimmed "Options:"
    || jsStartsWith trimmed "Commands:"

/-- Specification-side restatement of description extraction (C8, amended):
the trim of the first line not skipped by `specSkipLine`, or the empty
string. -/
def specExtractDescription (helpText commandName : String) : String :=
  (((splitLines helpText).find? fun l => !specSkipLine commandName l).map
    jsTrim).getD ""

/-- Condition of the C10 round-trip claim on the character sequence: every
character is a lowercase letter, a digit, or a hyphen immediately followed by
a lowercase letter. -/
def kebabOk : List Char → Bool
  | [] => true
  | c :: rest =>
    if c = '-' then
      match rest with
      | d :: _ => isLowerAZ d && kebabOk rest
      | [] => false
    else (isLowerAZ c || isDigit09 c) && kebabOk rest

/-- Keep the first tool for each name, dropping later tools whose name is in
`seen` or already occurred (specification side of the C5 first-seen-wins
invariant). -/
def dedupToolsFrom (seen : List String) : List McpTool → List McpTool
  | [] => []
  | t :: ts =>
    if seen.contains t.name then dedupToolsFrom seen ts
    else t :: dedupToolsFrom (t.name :: seen) ts

mutual

/-- Specification-side candidate list for the synthesizer (C5): the pre-order
sequence of tools every node would contribute before de-duplication — the
base-command tool for the root call, and the hyphen-joined filtered-path tool
for every other node reached within the depth cap. -/
def specToolCandidates : CliCommand → String → List String → List McpTool
  | CliCommand.mk nm ds subs opts args, baseCommand, parentPath =>
    let command := CliCommand.mk nm ds subs opts args
    let currentPath := (parentPath ++ [nm]).filter (· ≠ baseCommand)
    let own : List McpTool :=
      if parentPath.isEmpty then
        [{ name := baseCommand
           description :=
             if ds = "" then "Execute " ++ baseCommand ++ " command" else ds
           inputSchema := createInputSchema command }]
      else if !currentPath.isEmpty then
        [{ name := hyphenJoin currentPath
           description :=
             if ds = "" then "Execute " ++ hyphenJoin currentPath ++ " command"
             else ds
           inputSchema := createInputSchema command }]
      else []
    if subs.length > 0 && parentPath.length < 10 then
      own ++ specSubCandidates subs baseCommand (parentPath ++ [nm])
    else own

/-- Concatenated candidates of a child list. -/
def specSubCandidates : List CliCommand → String → List String → List McpTool
  | [], _, _ => []
  | s :: rest, baseCommand, childPath =>
    specToolCandidates s baseCommand childPath
      ++ specSubCandidates rest baseCommand childPath

end

/-- Names appearing in a tool list. -/
def toolNames (ts : List McpTool) : List String :=
  ts.map McpTool.name

/-- A string is a valid path segment for the discovery memo key: non-empty
and free of whitespace (every name accepted by `validateCommandName` is). -/
def wsFreeName (s : String) : Prop :=
  s ≠ "" ∧ ∀ c ∈ s.data, isJsWs c = false

theorem charToNat_ofNat {n : Nat} (h : n < 55296) : (Char.ofNat n).toNat = n := by
  have hv : n.isValidChar := Or.inl h
  rw [Char.ofNat, dif_pos hv]
  rfl

theorem isJsWs_toNat_le {c : Char} (h : isJsWs c = true) : c.toNat ≤ 32 := by
  simp only [isJsWs, Bool.or_eq_true, beq_iff_eq] at h
  rcases h with ((((h | h) | h) | h) | h) | h <;> subst h <;> decide

theorem isNameChar_toNat_ge {c : Char} (h : isNameChar c = true) : 45 ≤ c.toNat := by
  simp only [isNameChar, isLowerAZ, isUpperAZ, isDigit09, Bool.or_eq_true,
    Bool.and_eq_true, decide_eq_true_eq, beq_iff_eq] at h
  rcases h with (((⟨h1, _⟩ | ⟨h1, _⟩) | ⟨h1, _⟩) | h1) | h1
  · omega
  · omega
  · omega
  · subst h1; decide
  · subst h1; decide

theorem isLowerAZ_isNameChar {c : Char} (h : isLowerAZ c = true) :
    isNameChar c = true := by
  simp only [isNameChar, Bool.or_eq_true]
  exact Or.inl (Or.inl (Or.inl (Or.inl h)))

theorem isNameChar_not_ws {c : Char} (h : isNameChar c = true) :
    isJsWs c = false := by
  cases hw : isJsWs c with
  | false => rfl
  | true => exact absurd (isJsWs_toNat_le hw) (by have := isNameChar_toNat_ge h; omega)

theorem jsUpperChar_of_lower {c : Char} (h : isLowerAZ c = true) :
    isUpperAZ (jsUpperChar c) = true ∧ jsLowerChar (jsUpperChar c) = c := by
  simp only [isLowerAZ, Bool.and_eq_true, decide_eq_true_eq] at h
  have hval : c.toNat - 32 < 55296 := by omega
  have htn : (Char.ofNat (c.toNat - 32)).toNat = c.toNat - 32 := charToNat_ofNat hval
  have hupper : jsUpperChar c = Char.ofNat (c.toNat - 32) := by
    simp [jsUpperChar, isLowerAZ, h.1, h.2]
  have hU : isUpperAZ (jsUpperChar c) = true := by
    rw [hupper]
    simp only [isUpperAZ, htn, Bool.and_eq_true, decide_eq_true_eq]
    omega
  refine ⟨hU, ?_⟩
  rw [hupper]
  simp only [jsLowerChar, isUpperAZ, htn]
  rw [if_pos (by simp only [Bool.and_eq_true, decide_eq_true_eq]; omega)]
  have : c.toNat - 32 + 32 = c.toNat := by omega
  rw [this, Char.ofNat_toNat]

theorem isUpperAZ_false_of_lower_or_digit {c : Char}
    (h : (isLowerAZ c || isDigit09 c) = true) : isUpperAZ c = false := by
  simp only [isLowerAZ, isDigit09, Bool.or_eq_true, Bool.and_eq_true,
    decide_eq_true_eq] at h
  cases hu : isUpperAZ c with
  | false => rfl
  | true =>
    simp only [isUpperAZ, Bool.and_eq_true, decide_eq_true_eq] at hu
    omega

theorem string_length_data (s : String) : s.length = s.data.length := rfl

theorem containsSub_singleton (l : List Char) (c : Char) :
    containsSub l [c] = l.contains c := by
  induction l with
  | nil => rfl
  | cons x t ih =>
    rw [containsSub]
    by_cases hx : c = x
    · subst hx
      simp [List.isPrefixOf, List.contains_cons]
    · have hpre : [c].isPrefixOf (x :: t) = false := by
        simp [List.isPrefixOf, hx]
      simp only [hpre, Bool.false_eq_true, if_false, List.contains_cons, ih]
      have hxc : (x == c) = false := by simp [Ne.symm hx]
      simp [hxc, hx]

theorem matchesNamePattern_chars {name : String}
    (h : matchesNamePattern name = true) :
    name ≠ "" ∧ ∀ c ∈ name.data, isNameChar c = true := by
  unfold matchesNamePattern at h
  match hd : name.data with
  | [] => rw [hd] at h; exact absurd h (by decide)
  | c :: rest =>
    rw [hd] at h
    simp only [Bool.and_eq_true, List.all_eq_true] at h
    constructor
    · intro he
      rw [he] at hd
      exact absurd hd (by simp [String.data])
    · intro x hx
      rcases List.mem_cons.mp hx with hx | hx
      · exact hx ▸ isLowerAZ_isNameChar h.1
      · exact h.2 x hx

theorem matchesNamePattern_no_ws {name : String}
    (h : matchesNamePattern name = true) :
    ∀ c ∈ name.data, isJsWs c = false := by
  intro c hc
  exact isNameChar_not_ws ((matchesNamePattern_chars h).2 c hc)

theorem contains_false_of_no_ws {l : List Char} {c : Char}
    (h : ∀ x ∈ l, isJsWs x = false) (hc : isJsWs c = true) :
    l.contains c = false := by
  cases hl : l.contains c with
  | false => rfl
  | true =>
    have hmem : c ∈ l := by simpa using hl
    rw [h c hmem] at hc
    exact absurd hc (by decide)

theorem validateCommandName_eq_spec (name : String) :
    validateCommandName name = true ↔ specValidName name := by
  unfold validateCommandName specValidName
  constructor
  · intro h
    split_ifs at h with h1 h2 h3 h4
    simp only [Bool.not_eq_true'] at h4
    have hpat : matchesNamePattern name = true := by
      cases hp : matchesNamePattern name with
      | true => rfl
      | false => rw [hp] at h4; exact absurd h4 (by decide)
    refine ⟨h1, ?_, ?_, matchesNamePattern_no_ws hpat, hpat, ?_⟩
    · simp only [Bool.or_eq_true, decide_eq_true_eq, not_or, not_lt] at h2
      exact h2.1
    · simp only [Bool.or_eq_true, decide_eq_true_eq, not_or, not_lt] at h2
      exact h2.2
    · intro hmem
      have : invalidWords.contains (jsLowerStr name) = true := by
        simpa using hmem
      rw [this] at h
      exact absurd h (by decide)
  · rintro ⟨hne, hlen2, hlen50, hws, hpat, hmem⟩
    rw [if_neg hne]
    rw [if_neg (by simp only [Bool.or_eq_true, decide_eq_true_eq, not_or, not_lt]; omega)]
    have hsp : jsIncludes name " " = false := by
      show containsSub name.data [' '] = false
      rw [containsSub_singleton]
      exact contains_false_of_no_ws hws (by decide)
    have htab : jsIncludes name "\t" = false := by
      show containsSub name.data ['\t'] = false
      rw [containsSub_singleton]
      exact contains_false_of_no_ws hws (by decide)
    rw [if_neg (by simp [hsp, htab])]
    rw [if_neg (by simp [hpat])]
    simp only [Bool.not_eq_true']
    cases hc : invalidWords.contains (jsLowerStr name) with
    | false => rfl
    | true => exact absurd (by simpa using hc) hmem

theorem kebabOk_cons_dash {d : Char} {rest : List Char}
    (h : kebabOk ('-' :: d :: rest) = true) :
    isLowerAZ d = true ∧ kebabOk (d :: rest) = true := by
  simpa [kebabOk] using h

theorem lower_ne_dash {d : Char} (h : isLowerAZ d = true) : d ≠ '-' := by
  intro he
  subst he
  exact absurd h (by decide)

theorem kebab_camel_chars : ∀ n (l : List Char), l.length ≤ n →
    kebabOk l = true → kebabChars (camelChars l) = l := by
  intro n
  induction n with
  | zero =>
    intro l hl _
    have : l = [] := List.eq_nil_of_length_eq_zero (Nat.le_zero.mp hl)
    subst this
    rfl
  | succ n ih =>
    intro l hl hok
    match l with
    | [] => rfl
    | [c] =>
      simp only [kebabOk] at hok
      by_cases hc : c = '-'
      · rw [if_pos hc] at hok
        exact absurd hok (by decide)
      · rw [if_neg hc] at hok
        simp only [Bool.and_eq_true] at hok
        rw [camelChars, kebabChars, if_neg (by rw [isUpperAZ_false_of_lower_or_digit hok.1]; decide)]
        rfl
    | c :: d :: rest =>
      by_cases hc : c = '-' ∧ isLowerAZ d = true
      · obtain ⟨hc1, hc2⟩ := hc
        subst hc1
        have hrest : kebabOk (d :: rest) = true := (kebabOk_cons_dash hok).2
        have hrest2 : kebabOk rest = true := by
          simp only [kebabOk] at hrest
          rw [if_neg (lower_ne_dash hc2)] at hrest
          simp only [Bool.and_eq_true] at hrest
          exact hrest.2
        have hup := jsUpperChar_of_lower hc2
        rw [camelChars, if_pos (by simp [hc2])]
        rw [kebabChars, if_pos (by rw [hup.1])]
        rw [hup.2]
        rw [ih rest (by simp at hl; omega) hrest2]
      · have hcond : ¬(c = '-' && isLowerAZ d) = true := by
          simp only [Bool.and_eq_true, decide_eq_true_eq]
          intro hx
          exact hc ⟨hx.1, hx.2⟩
        rw [camelChars, if_neg hcond]
        have hcne : c ≠ '-' := by
          intro he
          subst he
          have := kebabOk_cons_dash hok
          exact hc ⟨rfl, this.1⟩
        simp only [kebabOk] at hok
        rw [if_neg hcne] at hok
        simp only [Bool.and_eq_true] at hok
        rw [kebabChars, if_neg (by rw [isUpperAZ_false_of_lower_or_digit hok.1]; decide)]
        rw [ih (d :: rest) (by simp at hl ⊢; omega) hok.2]

/-- C10: for a non-empty kebab-shaped string (lowercase letters and digits,
hyphens each followed by a lowercase letter, no leading hyphen), converting
to camelCase and back to kebab-case is the identity. -/
theorem toKebabCase_toCamelCase_roundtrip (s : String) (_hne : s ≠ "")
    (_hhead : s.data.head? ≠ some '-') (hok : kebabOk s.data = true) :
    toKebabCase (toCamelCase s) = s := by
  show (⟨kebabChars (camelChars s.data)⟩ : String) = s
  rw [kebab_camel_chars s.data.length s.data le_rfl hok]

/-- Closed instance of the C10 round trip at `list-items`. -/
theorem toKebabCase_toCamelCase_roundtrip_witness :
    toKebabCase (toCamelCase "list-items") = "list-items" :=
  toKebabCase_toCamelCase_roundtrip "list-items" (by decide) (by decide) (by decide)

/-- C2 counterexample: on the claimed input the reconstructed token sequence
is `vm create x rg1 --generate-ssh-keys`; the key `resourceGroup` is judged
positional, so the flag token `--resource-group` never appears (in
particular not adjacent to `rg1`). -/
theorem executeCommand_azVmCreate_noResourceGroupFlag :
    executeCommandArgs "az" "vm-create"
        [("name", JsVal.str "x"), ("resourceGroup", JsVal.str "rg1"),
         ("generateSshKeys", JsVal.bool true)]
      = some ["vm", "create", "x", "rg1", "--generate-ssh-keys"] ∧
      "--resource-group" ∉ ["vm", "create", "x", "rg1", "--generate-ssh-keys"] := by
  exact ⟨by rfl, by decide⟩

/-- C2 as amended: the reconstructed sequence begins with `vm`, `create`,
contains the bare positional value `rg1` and the flag
`--generate-ssh-keys`, and contains no `--resource-group` token. -/
theorem executeCommand_azVmCreate_tokens :
    executeCommandArgs "az" "vm-create"
        [("name", JsVal.str "x"), ("resourceGroup", JsVal.str "rg1"),
         ("generateSshKeys", JsVal.bool true)]
      = some ["vm", "create", "x", "rg1", "--generate-ssh-keys"] ∧
      ["vm", "create", "x", "rg1", "--generate-ssh-keys"].take 2 = ["vm", "create"] ∧
      "rg1" ∈ ["vm", "create", "x", "rg1", "--generate-ssh-keys"] ∧
      "--generate-ssh-keys" ∈ ["vm", "create", "x", "rg1", "--generate-ssh-keys"] ∧
      "--resource-group" ∉ ["vm", "create", "x", "rg1", "--generate-ssh-keys"] := by
  exact ⟨by rfl, by rfl, by decide, by decide, by decide⟩

theorem extractDescGo_eq_find (c : String) : ∀ lines : List String,
    extractDescGo c lines =
      (((lines.find? fun l => !specSkipLine c l).map jsTrim).getD "") := by
  intro lines
  induction lines with
  | nil => rfl
  | cons line rest ih =>
    simp only [extractDescGo, List.find?_cons]
    by_cases h1 : (jsTrim line = "" || jsTrim line = "Group"
        || jsTrim line = "Command") = true
    · rw [if_pos h1]
      have hskip : specSkipLine c line = true := by
        simp only [specSkipLine, Bool.or_eq_true, decide_eq_true_eq] at h1 ⊢
        tauto
      rw [hskip]
      simpa using ih
    · rw [if_neg h1]
      by_cases h2 : (c ≠ "" && jsStartsWith (jsTrim line) c) = true
      · rw [if_pos h2]
        have hskip : specSkipLine c line = true := by
          simp only [specSkipLine, Bool.or_eq_true, Bool.and_eq_true,
            decide_eq_true_eq] at h2 ⊢
          tauto
        rw [hskip]
        simpa using ih
      · rw [if_neg h2]
        by_cases h3 : (jsStartsWith (jsTrim line) "Usage:"
            || jsStartsWith (jsTrim line) "Options:"
            || jsStartsWith (jsTrim line) "Commands:") = true
        · rw [if_pos h3]
          have hskip : specSkipLine c line = true := by
            simp only [specSkipLine, Bool.or_eq_true] at h3 ⊢
            tauto
          rw [hskip]
          simpa using ih
        · rw [if_neg h3]
          have hne : jsTrim line ≠ "" := by
            intro he
            exact h1 (by simp [he])
          rw [if_pos hne]
          have hskip : specSkipLine c line = false := by
            cases hv : specSkipLine c line with
            | false => rfl
            | true =>
              exfalso
              simp only [specSkipLine, Bool.or_eq_true, Bool.and_eq_true,
                decide_eq_true_eq] at hv
              simp only [Bool.or_eq_true, Bool.and_eq_true,
                decide_eq_true_eq] at h1 h2 h3
              tauto
          rw [hskip]
          rfl

/-- C8 counterexample: the extractor skips any line that merely begins with
the command name, so for help text whose first line starts with `mycmd` but
is not exactly `mycmd`, the extracted description is the second line, not
the first. -/
theorem extractDescription_startsWith_counterexample :
    extractDescription "mycmd is great\nSecond line" "mycmd" = "Second line" ∧
      "Second line" ≠ "mycmd is great" := by
  exact ⟨by rfl, by decide⟩

/-- C8 as amended: the extracted description is the trim of the first line
left after skipping blank lines, generic header lines, lines beginning with
the command name, and lines beginning with `Usage:`, `Options:` or
`Commands:`; empty if no line remains. -/
theorem extractDescription_eq_spec (helpText commandName : String) :
    extractDescription helpText commandName
      = specExtractDescription helpText commandName := by
  unfold extractDescription specExtractDescription
  by_cases h : helpText = ""
  · subst h
    rfl
  · rw [if_neg h]
    exact extractDescGo_eq_find commandName (splitLines helpText)

/-- C7: command-name validation accepts a name exactly when it is non-empty,
2 to 50 characters long, whitespace-free, matches `^[a-z][a-zA-Z0-9_-]*$` and
is not on the deny-list (case-insensitively); in particular it rejects `the`
and `usage` and accepts `deploy` and `list-items`. -/
theorem validateCommandName_iff_spec :
    (∀ name : String, validateCommandName name = true ↔ specValidName name) ∧
      validateCommandName "the" = false ∧ validateCommandName "usage" = false ∧
      validateCommandName "deploy" = true ∧
      validateCommandName "list-items" = true :=
  ⟨validateCommandName_eq_spec, by decide, by decide, by decide, by decide⟩

theorem scanEntriesGo_props (content : List String) : ∀ fuel i,
    ∀ cmd ∈ scanEntriesGo content fuel i,
      validateCommandName cmd.name = true ∧ cmd.subcommands = [] := by
  intro fuel
  induction fuel with
  | zero =>
    intro i cmd h
    exact absurd h (by simp [scanEntriesGo])
  | succ fuel ih =>
    intro i cmd h
    rw [scanEntriesGo] at h
    match hline : content.get? i with
    | none =>
      rw [hline] at h
      exact absurd h (by simp)
    | some line =>
      rw [hline] at h
      dsimp only at h
      match hm : matchCommandEntry line.data with
      | none =>
        rw [hm] at h
        dsimp only at h
        exact ih (i + 1) cmd h
      | some (commandName, rest) =>
        rw [hm] at h
        dsimp only at h
        by_cases hv : validateCommandName commandName = true
        · rw [if_pos hv] at h
          rcases List.mem_cons.mp h with h | h
          · subst h
            exact ⟨hv, rfl⟩
          · exact ih _ cmd h
        · rw [if_neg hv] at h
          exact ih (i + 1) cmd h

theorem parseSubcommandsFromText_props (helpText : String) :
    ∀ cmd ∈ parseSubcommandsFromText helpText,
      validateCommandName cmd.name = true ∧ cmd.subcommands = [] := by
  intro cmd h
  unfold parseSubcommandsFromText at h
  by_cases h0 : helpText = ""
  · rw [if_pos h0] at h
    exact absurd h (by simp)
  · rw [if_neg h0] at h
    by_cases ht : isTerminalCommand helpText = true
    · rw [if_pos ht] at h
      exact absurd h (by simp)
    · rw [if_neg ht] at h
      rcases List.mem_flatten.mp h with ⟨entries, hentries, hcmd⟩
      rcases List.mem_map.mp hentries with ⟨section', _, hsec⟩
      subst hsec
      exact scanEntriesGo_props section'.content _ 0 cmd hcmd

theorem parseHelpText_sub_props (ph : String → Option ParsedHelp)
    (helpText commandName : String) :
    ∀ sub ∈ (parseHelpText ph helpText commandName).subcommands,
      validateCommandName sub.name = true ∧ sub.subcommands = [] := by
  intro sub h
  unfold parseHelpText at h
  by_cases h0 : helpText = "" || commandName = ""
  · rw [if_pos h0] at h
    exact absurd h (by simp [CliCommand.subcommands])
  · rw [if_neg h0] at h
    match hp : ph helpText with
    | some parsed =>
      rw [hp] at h
      simp only [CliCommand.subcommands] at h
      exact parseSubcommandsFromText_props helpText sub h
    | none =>
      rw [hp] at h
      simp only [CliCommand.subcommands] at h
      exact parseSubcommandsFromText_props helpText sub h

/-- C9: every subcommand stub emitted by the parser has a name that passes
command-name validation — it is 2 to 50 characters long, matches
`^[a-z][a-zA-Z0-9_-]*$`, contains no whitespace and is not on the
deny-list. -/
theorem parseHelpText_subnames_valid (ph : String → Option ParsedHelp)
    (helpText commandName : String) (sub : CliCommand)
    (h : sub ∈ (parseHelpText ph helpText commandName).subcommands) :
    validateCommandName sub.name = true ∧ specValidName sub.name := by
  have hv := (parseHelpText_sub_props ph helpText commandName sub h).1
  exact ⟨hv, (validateCommandName_eq_spec sub.name).mp hv⟩

/-- Closed instance of C9: the `deploy` stub parsed from a small help text
passes validation. -/
theorem parseHelpText_subnames_valid_witness :
    validateCommandName "deploy" = true ∧ specValidName "deploy" := by
  have he : (parseHelpText (fun _ => none) "Commands:\n  deploy  Deploy the app"
      "app").subcommands = [CliCommand.mk "deploy" "Deploy the app" [] [] []] := rfl
  have h := parseHelpText_subnames_valid (fun _ => none)
    "Commands:\n  deploy  Deploy the app" "app"
    (CliCommand.mk "deploy" "Deploy the app" [] [] [])
    (by rw [he]; exact List.mem_singleton.mpr rfl)
  simpa [CliCommand.name] using h

/-- C1 counterexample: with the external `parse-help` call failing (an
internal parse failure, caught by the source), the parser still returns a
best-effort node — here with a non-empty description and a `deploy`
subcommand stub — not a node with empty description and empty children. -/
theorem parseHelpText_failure_counterexample :
    (parseHelpText (fun _ => none) "Commands:\n  deploy  Deploy the app"
        "app").description = "deploy  Deploy the app" ∧
      ((parseHelpText (fun _ => none) "Commands:\n  deploy  Deploy the app"
        "app").subcommands).map CliCommand.name = ["deploy"] ∧
      "deploy  Deploy the app" ≠ "" ∧ (["deploy"] : List String) ≠ [] := by
  exact ⟨rfl, rfl, by decide, by decide⟩

/-- C1 as amended: `parse` is total (it returns a `CommandNode` for every
input by construction), and on an internal `parse-help` failure with
non-empty inputs it returns a best-effort node carrying the given name, the
fallback-extracted description, the text-extracted subcommand stubs and
arguments, and empty options — rather than propagating the error. -/
theorem parseHelpText_failure_best_effort (ph : String → Option ParsedHelp)
    (helpText commandName : String) (h1 : helpText ≠ "") (h2 : commandName ≠ "")
    (hfail : ph helpText = none) :
    parseHelpText ph helpText commandName =
      CliCommand.mk commandName (extractDescription helpText commandName)
        (parseSubcommandsFromText helpText) [] (parseArgumentsFromText helpText) := by
  unfold parseHelpText
  rw [if_neg (by simp [h1, h2])]
  rw [hfail]

/-- Closed instance of the amended C1 at a concrete failing parse. -/
theorem parseHelpText_failure_best_effort_witness :
    parseHelpText (fun _ => none) "Commands:\n  deploy  Deploy the app" "app" =
      CliCommand.mk "app"
        (extractDescription "Commands:\n  deploy  Deploy the app" "app")
        (parseSubcommandsFromText "Commands:\n  deploy  Deploy the app") []
        (parseArgumentsFromText "Commands:\n  deploy  Deploy the app") :=
  parseHelpText_failure_best_effort (fun _ => none)
    "Commands:\n  deploy  Deploy the app" "app" (by decide) (by decide) rfl

theorem ciPrefix_lower : ∀ (pat cs cap rest : List Char),
    ciPrefix pat cs = some (cap, rest) → jsLowerChars cap = jsLowerChars pat := by
  intro pat
  induction pat with
  | nil =>
    intro cs cap rest h
    simp only [ciPrefix, Option.some.injEq, Prod.mk.injEq] at h
    rw [← h.1]
  | cons p ps ih =>
    intro cs cap rest h
    match cs with
    | [] => exact absurd h (by simp [ciPrefix])
    | c :: cs' =>
      rw [ciPrefix] at h
      by_cases hc : jsLowerChar c = jsLowerChar p
      · rw [if_pos hc] at h
        match hrec : ciPrefix ps cs' with
        | none => rw [hrec] at h; exact absurd h (by simp)
        | some (cap0, rest0) =>
          rw [hrec] at h
          simp only [Option.some.injEq, Prod.mk.injEq] at h
          rw [← h.1]
          simp only [jsLowerChars, List.map_cons]
          rw [hc]
          have := ih cs' cap0 rest0 hrec
          simp only [jsLowerChars] at this
          rw [this]
      · rw [if_neg hc] at h
        exact absurd h (by simp)

theorem matchSectionAlt_lower {pat : String} {optS : Bool} {cs cap : List Char}
    (h : matchSectionAlt pat optS cs = some cap) :
    ∃ b : Bool, jsLowerChars cap
      = jsLowerChars pat.data ++ (if b then ['s'] else []) := by
  unfold matchSectionAlt at h
  match hp : ciPrefix pat.data cs with
  | none => rw [hp] at h; exact absurd h (by simp)
  | some (cap0, rest0) =>
    rw [hp] at h
    dsimp only at h
    have hl := ciPrefix_lower pat.data cs cap0 rest0 hp
    by_cases ho : optS = true
    · rw [if_pos ho] at h
      match rest0 with
      | [] =>
        simp only [Option.some.injEq] at h
        exact ⟨false, by rw [← h]; simpa using hl⟩
      | c :: rest1 =>
        dsimp only at h
        by_cases hc : jsLowerChar c = 's'
        · rw [if_pos hc] at h
          simp only [Option.some.injEq] at h
          refine ⟨true, ?_⟩
          rw [← h]
          simp only [jsLowerChars, List.map_append, List.map_cons, List.map_nil]
          simp only [jsLowerChars] at hl
          rw [hl, hc]
          simp
        · rw [if_neg hc] at h
          simp only [Option.some.injEq] at h
          exact ⟨false, by rw [← h]; simpa using hl⟩
    · rw [if_neg ho] at h
      simp only [Option.some.injEq] at h
      exact ⟨false, by rw [← h]; simpa using hl⟩

theorem trySectionAlts_lower : ∀ (alts : List (String × Bool)) (cs cap : List Char),
    trySectionAlts alts cs = some cap →
      ∃ pa ∈ alts, ∃ b : Bool, jsLowerChars cap
        = jsLowerChars pa.1.data ++ (if b then ['s'] else []) := by
  intro alts
  induction alts with
  | nil => intro cs cap h; exact absurd h (by simp [trySectionAlts])
  | cons pa rest ih =>
    intro cs cap h
    rw [trySectionAlts] at h
    match hm : matchSectionAlt pa.1 pa.2 cs with
    | some cap0 =>
      rw [hm] at h
      simp only [Option.some.injEq] at h
      subst h
      exact ⟨pa, List.mem_cons_self pa rest, matchSectionAlt_lower hm⟩
    | none =>
      rw [hm] at h
      obtain ⟨pa', hpa', hb⟩ := ih cs cap h
      exact ⟨pa', List.mem_cons_of_mem pa hpa', hb⟩

/-- A section name neither contains `argument` nor equals `args`. -/
def argFreeName (n : String) : Prop :=
  containsSub n.data ("argument".data) = false ∧ n ≠ "args"

theorem matchCommandSection_argFree {cs cap : List Char}
    (h : matchCommandSection cs = some cap) :
    argFreeName ⟨jsLowerChars cap⟩ := by
  obtain ⟨pa, hpa, b, hb⟩ := trySectionAlts_lower commandSectionAlts
    (cs.dropWhile isJsWs) cap h
  unfold argFreeName
  have hname : (⟨jsLowerChars cap⟩ : String)
      = ⟨jsLowerChars pa.1.data ++ (if b then ['s'] else [])⟩ := by
    rw [hb]
  rw [hname]
  revert hpa
  unfold commandSectionAlts
  intro hpa
  fin_cases hpa <;> cases b <;> exact ⟨by decide, by decide⟩

theorem mem_flushSection {cur : Option ParsedSection} {s : ParsedSection}
    (hcur : ∀ c, cur = some c → argFreeName c.name)
    (hs : s ∈ flushSection cur) : argFreeName s.name := by
  match cur with
  | none => exact absurd hs (by simp [flushSection])
  | some c =>
    rw [flushSection, List.mem_singleton] at hs
    subst hs
    exact hcur _ rfl

theorem sectionsGo_argFree : ∀ (lines : List String) (cur : Option ParsedSection),
    (∀ c, cur = some c → argFreeName c.name) →
    ∀ s ∈ sectionsGo lines cur, argFreeName s.name := by
  intro lines
  induction lines with
  | nil =>
    intro cur hcur s hs
    rw [sectionsGo] at hs
    exact mem_flushSection hcur hs
  | cons line rest ih =>
    intro cur hcur s hs
    rw [sectionsGo] at hs
    match hm : matchCommandSection line.data with
    | some cap =>
      rw [hm] at hs
      dsimp only at hs
      rcases List.mem_append.mp hs with hs | hs
      · exact mem_flushSection hcur hs
      · refine ih _ ?_ s hs
        rintro c hc
        rw [Option.some.injEq] at hc
        subst hc
        exact matchCommandSection_argFree hm
    | none =>
      rw [hm] at hs
      dsimp only at hs
      by_cases ht : jsTrim line ≠ ""
      · rw [if_pos ht] at hs
        refine ih _ ?_ s hs
        rintro c hc
        match cur with
        | none => exact absurd hc (by simp [appendToSection])
        | some c0 =>
          rw [appendToSection, Option.map_some', Option.some.injEq] at hc
          subst hc
          exact hcur c0 rfl
      · rw [if_neg ht] at hs
        exact ih _ hcur s hs

/-- C6 as amended: the full pipeline never produces a positional argument —
the section splitter only opens sections at command-section headers, whose
lowercased names never contain `argument` nor equal `args`, so the filtered
section list of `parseArgumentsFromText` is always empty. -/
theorem parseArgumentsFromText_empty (helpText : String) :
    parseArgumentsFromText helpText = [] := by
  unfold parseArgumentsFromText
  by_cases h0 : helpText = ""
  · rw [if_pos h0]
  · rw [if_neg h0]
    have hfilter : (parseHelpSections helpText).filter (fun s =>
        containsSub s.name.data ("argument".data) || s.name = "args") = [] := by
      rw [List.filter_eq_nil_iff]
      intro s hs
      have hfree : argFreeName s.name := by
        unfold parseHelpSections at hs
        by_cases hh : helpText = ""
        · exact absurd hs (by rw [if_pos hh] at hs ⊢; simp at hs)
        · rw [if_neg hh] at hs
          exact sectionsGo_argFree (splitLines helpText) none
            (by rintro c hc; exact absurd hc (by simp)) s hs
      simp only [Bool.or_eq_true, decide_eq_true_eq]
      rintro (hc | hc)
      · rw [hfree.1] at hc
        exact absurd hc (by decide)
      · exact hfree.2 hc
    dsimp only
    rw [hfilter]
    rfl

/-- C6 counterexample: a help text with an `Arguments:` section whose line
matches the `ARGUMENT_ENTRY` pattern with a `<` bracket still produces no
`PositionalArg` at all, because `Arguments` is not a recognised section
header; the bracket-derived `required` rule therefore never applies. -/
theorem parseArgumentsFromText_counterexample :
    matchArgumentEntry ("  <file>       Input file (required)".data)
        = some ("file", "Input file (required)") ∧
      parseArgumentsFromText
        "Test command\n\nArguments:\n  <file>       Input file (required)\n\nOptions:\n  --force      Force operation"
        = [] := by
  exact ⟨by rfl, parseArgumentsFromText_empty _⟩

theorem dedupToolsFrom_congr : ∀ (ts : List McpTool) (S S' : List String),
    (∀ n, n ∈ S ↔ n ∈ S') → dedupToolsFrom S ts = dedupToolsFrom S' ts := by
  intro ts
  induction ts with
  | nil => intro S S' _; rfl
  | cons t ts ih =>
    intro S S' h
    rw [dedupToolsFrom, dedupToolsFrom]
    by_cases hm : t.name ∈ S
    · rw [if_pos (by simpa using hm), if_pos (by simpa using (h t.name).mp hm)]
      exact ih S S' h
    · rw [if_neg (by simpa using hm),
        if_neg (by simpa using fun hx => hm ((h t.name).mpr hx))]
      rw [ih (t.name :: S) (t.name :: S') (by intro n; simp [h n])]

theorem dedupToolsFrom_comp : ∀ (ts : List McpTool) (S T : List String),
    dedupToolsFrom S (dedupToolsFrom T ts) = dedupToolsFrom (S ++ T) ts := by
  intro ts
  induction ts with
  | nil => intro S T; rfl
  | cons t ts ih =>
    intro S T
    simp only [dedupToolsFrom]
    by_cases hT : t.name ∈ T
    · rw [if_pos (by simpa using hT), if_pos (by simp [hT]), ih S T]
    · rw [if_neg (by simpa using hT)]
      rw [dedupToolsFrom]
      by_cases hS : t.name ∈ S
      · rw [if_pos (by simpa using hS), if_pos (by simp [hS]), ih S (t.name :: T)]
        refine dedupToolsFrom_congr ts _ _ fun n => ?_
        simp only [List.mem_append, List.mem_cons]
        constructor
        · rintro (h | rfl | h)
          · exact Or.inl h
          · exact Or.inl hS
          · exact Or.inr h
        · rintro (h | h)
          · exact Or.inl h
          · exact Or.inr (Or.inr h)
      · rw [if_neg (by simpa using hS), if_neg (by simp [hS, hT]),
          ih (t.name :: S) (t.name :: T)]
        rw [dedupToolsFrom_congr ts (t.name :: S ++ t.name :: T)
          (t.name :: (S ++ T)) (by intro n; simp; tauto)]

theorem dedupToolsFrom_append : ∀ (xs ys : List McpTool) (S : List String),
    dedupToolsFrom S (xs ++ ys)
      = dedupToolsFrom S xs
        ++ dedupToolsFrom (toolNames (dedupToolsFrom S xs) ++ S) ys := by
  intro xs
  induction xs with
  | nil =>
    intro ys S
    simp [dedupToolsFrom, toolNames]
  | cons x xs ih =>
    intro ys S
    rw [List.cons_append, dedupToolsFrom, dedupToolsFrom]
    by_cases hm : x.name ∈ S
    · rw [if_pos (by simpa using hm), if_pos (by simpa using hm)]
      exact ih ys S
    · rw [if_neg (by simpa using hm), if_neg (by simpa using hm)]
      rw [List.cons_append, ih ys (x.name :: S)]
      rw [dedupToolsFrom_congr ys
        (toolNames (dedupToolsFrom (x.name :: S) xs) ++ x.name :: S)
        (toolNames (x :: dedupToolsFrom (x.name :: S) xs) ++ S)
        (by intro n; simp only [toolNames, List.mem_append, List.map_cons, List.mem_cons]; tauto)]

theorem dedupToolsFrom_nodup : ∀ (ts : List McpTool) (S : List String),
    (toolNames (dedupToolsFrom S ts)).Nodup ∧
      ∀ n ∈ toolNames (dedupToolsFrom S ts), n ∉ S := by
  intro ts
  induction ts with
  | nil =>
    intro S
    exact ⟨List.nodup_nil, by simp [dedupToolsFrom, toolNames]⟩
  | cons t ts ih =>
    intro S
    rw [dedupToolsFrom]
    by_cases hm : t.name ∈ S
    · rw [if_pos (by simpa using hm)]
      exact ih S
    · rw [if_neg (by simpa using hm)]
      have h := ih (t.name :: S)
      constructor
      · simp only [toolNames, List.map_cons, List.nodup_cons]
        refine ⟨fun hx => ?_, h.1⟩
        exact h.2 t.name hx (List.mem_cons_self _ _)
      · intro n hn
        simp only [toolNames, List.map_cons, List.mem_cons] at hn
        rcases hn with rfl | hn
        · exact hm
        · exact fun hx => h.2 n hn (List.mem_cons_of_mem _ hx)

theorem mergeToolList_spec : ∀ (ts tools : List McpTool) (seen : List String),
    (mergeToolList ts (tools, seen)).1 = tools ++ dedupToolsFrom seen ts ∧
      ∀ n, n ∈ (mergeToolList ts (tools, seen)).2 ↔
        n ∈ seen ∨ n ∈ toolNames (dedupToolsFrom seen ts) := by
  intro ts
  induction ts with
  | nil =>
    intro tools seen
    constructor
    · simp [mergeToolList, dedupToolsFrom]
    · intro n
      simp [mergeToolList, dedupToolsFrom, toolNames]
  | cons t ts ih =>
    intro tools seen
    rw [mergeToolList, dedupToolsFrom]
    by_cases hm : t.name ∈ seen
    · rw [if_pos (by simpa using hm), if_pos (by simpa using hm)]
      exact ih tools seen
    · rw [if_neg (by simpa using hm), if_neg (by simpa using hm)]
      have h := ih (tools ++ [t]) (t.name :: seen)
      constructor
      · rw [h.1]
        simp
      · intro n
        rw [h.2 n]
        simp only [List.mem_cons, toolNames, List.map_cons, List.mem_cons]
        tauto

theorem sizeOf_subs_lt (nm ds : String) (subs : List CliCommand)
    (opts : List CliOption) (args : List CliArgument) :
    sizeOf subs < sizeOf (CliCommand.mk nm ds subs opts args) := by
  simp only [CliCommand.mk.sizeOf_spec]
  omega

theorem sizeOf_head_lt (s : CliCommand) (rest : List CliCommand) :
    sizeOf s < sizeOf (s :: rest) := by
  simp only [List.cons.sizeOf_spec]
  omega

theorem sizeOf_tail_lt (s : CliCommand) (rest : List CliCommand) :
    sizeOf rest < sizeOf (s :: rest) := by
  simp only [List.cons.sizeOf_spec]
  omega

theorem convert_dedup_aux : ∀ N : Nat,
    (∀ (c : CliCommand) (b : String) (p : List String), sizeOf c ≤ N →
      convertCommandToTools c b p = dedupToolsFrom [] (specToolCandidates c b p)) ∧
    (∀ (subs : List CliCommand) (b : String) (p : List String)
        (tools : List McpTool) (seen : List String), sizeOf subs ≤ N →
      (∀ n, n ∈ seen ↔ n ∈ toolNames tools) →
      (convertSubs subs b p (tools, seen)).1
          = tools ++ dedupToolsFrom seen (specSubCandidates subs b p) ∧
      (∀ n, n ∈ (convertSubs subs b p (tools, seen)).2 ↔
        n ∈ seen ∨ n ∈ toolNames (dedupToolsFrom seen (specSubCandidates subs b p)))) := by
  intro N
  induction N using Nat.strong_induction_on with
  | _ N ih =>
    have partSubs : ∀ (subs : List CliCommand) (b : String) (p : List String)
        (tools : List McpTool) (seen : List String), sizeOf subs ≤ N →
        (∀ n, n ∈ seen ↔ n ∈ toolNames tools) →
        (convertSubs subs b p (tools, seen)).1
            = tools ++ dedupToolsFrom seen (specSubCandidates subs b p) ∧
        (∀ n, n ∈ (convertSubs subs b p (tools, seen)).2 ↔
          n ∈ seen ∨ n ∈ toolNames (dedupToolsFrom seen (specSubCandidates subs b p))) := by
      intro subs
      match subs with
      | [] =>
        intro b p tools seen _ _
        constructor
        · simp [convertSubs, specSubCandidates, dedupToolsFrom]
        · intro n
          simp [convertSubs, specSubCandidates, dedupToolsFrom, toolNames]
      | s :: rest =>
        intro b p tools seen hsize hinv
        have hsz1 : sizeOf s < N :=
          lt_of_lt_of_le (sizeOf_head_lt s rest) hsize
        have hsz2 : sizeOf rest < N :=
          lt_of_lt_of_le (sizeOf_tail_lt s rest) hsize
        have hE1 : convertCommandToTools s b p
            = dedupToolsFrom [] (specToolCandidates s b p) :=
          (ih (sizeOf s) hsz1).1 s b p le_rfl
        have hA := mergeToolList_spec (convertCommandToTools s b p) tools seen
        have hD1 : dedupToolsFrom seen (convertCommandToTools s b p)
            = dedupToolsFrom seen (specToolCandidates s b p) := by
          rw [hE1, dedupToolsFrom_comp]
          exact dedupToolsFrom_congr _ _ _ (by intro n; simp)
        have hinv' : ∀ n,
            n ∈ (mergeToolList (convertCommandToTools s b p) (tools, seen)).2 ↔
            n ∈ toolNames (mergeToolList (convertCommandToTools s b p) (tools, seen)).1 := by
          intro n
          rw [hA.2 n, hA.1, hD1]
          simp only [toolNames, List.map_append, List.mem_append]
          rw [← toolNames, ← toolNames, ← hinv n]
        have hrest := (ih (sizeOf rest) hsz2).2 rest b p
          (mergeToolList (convertCommandToTools s b p) (tools, seen)).1
          (mergeToolList (convertCommandToTools s b p) (tools, seen)).2
          le_rfl hinv'
        have hpair : ((mergeToolList (convertCommandToTools s b p) (tools, seen)).1,
            (mergeToolList (convertCommandToTools s b p) (tools, seen)).2)
            = mergeToolList (convertCommandToTools s b p) (tools, seen) := rfl
        rw [hpair] at hrest
        have hstep : convertSubs (s :: rest) b p (tools, seen)
            = convertSubs rest b p
              (mergeToolList (convertCommandToTools s b p) (tools, seen)) := by
          rw [convertSubs]
        have hseen' : ∀ (ys : List McpTool),
            dedupToolsFrom (mergeToolList (convertCommandToTools s b p) (tools, seen)).2 ys
            = dedupToolsFrom
              (toolNames (dedupToolsFrom seen (specToolCandidates s b p)) ++ seen) ys := by
          intro ys
          apply dedupToolsFrom_congr
          intro n
          rw [hA.2 n, hD1]
          simp only [List.mem_append]
          tauto
        constructor
        · rw [hstep, hrest.1, hA.1, hD1, hseen']
          rw [show specSubCandidates (s :: rest) b p
              = specToolCandidates s b p ++ specSubCandidates rest b p from rfl]
          rw [dedupToolsFrom_append]
          rw [List.append_assoc]
        · intro n
          rw [hstep, hrest.2 n, hA.2 n, hD1, hseen']
          rw [show specSubCandidates (s :: rest) b p
              = specToolCandidates s b p ++ specSubCandidates rest b p from rfl]
          rw [dedupToolsFrom_append]
          simp only [toolNames, List.map_append, List.mem_append]
          tauto
    refine ⟨?_, partSubs⟩
    intro c b p hsize
    obtain ⟨nm, ds, subs, opts, args⟩ := c
    have hsub : sizeOf subs < N :=
      lt_of_lt_of_le (sizeOf_subs_lt nm ds subs opts args) hsize
    rw [convertCommandToTools, specToolCandidates]
    dsimp only
    by_cases hguard : (subs.length > 0 && p.length < 10) = true
    · rw [if_pos hguard, if_pos hguard]
      by_cases hp : p.isEmpty = true
      · rw [if_pos hp, if_pos hp]
        have hstart := (partSubs subs b (p ++ [nm])
          [{ name := b
             description := if ds = "" then "Execute " ++ b ++ " command" else ds
             inputSchema := createInputSchema (CliCommand.mk nm ds subs opts args) }]
          [b] (le_of_lt hsub) (by intro n; simp [toolNames])).1
        rw [hstart]
        rw [dedupToolsFrom_append]
        rw [show dedupToolsFrom []
            [({ name := b
                description := if ds = "" then "Execute " ++ b ++ " command" else ds
                inputSchema := createInputSchema (CliCommand.mk nm ds subs opts args) } : McpTool)]
            = [{ name := b
                 description := if ds = "" then "Execute " ++ b ++ " command" else ds
                 inputSchema := createInputSchema (CliCommand.mk nm ds subs opts args) }] from rfl]
        rw [List.cons_append, List.nil_append]
        congr 1
      · rw [if_neg hp, if_neg hp]
        by_cases hcp : (!((p ++ [nm]).filter (· ≠ b)).isEmpty) = true
        · rw [if_pos hcp, if_pos hcp]
          have hstart := (partSubs subs b (p ++ [nm])
            [{ name := hyphenJoin ((p ++ [nm]).filter (· ≠ b))
               description := if ds = "" then
                   "Execute " ++ hyphenJoin ((p ++ [nm]).filter (· ≠ b)) ++ " command"
                 else ds
               inputSchema := createInputSchema (CliCommand.mk nm ds subs opts args) }]
            [hyphenJoin ((p ++ [nm]).filter (· ≠ b))]
            (le_of_lt hsub) (by intro n; simp [toolNames])).1
          rw [hstart]
          rw [dedupToolsFrom_append]
          rw [show dedupToolsFrom []
              [({ name := hyphenJoin ((p ++ [nm]).filter (· ≠ b))
                  description := if ds = "" then
                      "Execute " ++ hyphenJoin ((p ++ [nm]).filter (· ≠ b)) ++ " command"
                    else ds
                  inputSchema := createInputSchema (CliCommand.mk nm ds subs opts args) } : McpTool)]
              = [{ name := hyphenJoin ((p ++ [nm]).filter (· ≠ b))
                   description := if ds = "" then
                       "Execute " ++ hyphenJoin ((p ++ [nm]).filter (· ≠ b)) ++ " command"
                     else ds
                   inputSchema := createInputSchema (CliCommand.mk nm ds subs opts args) }] from rfl]
          rw [List.cons_append, List.nil_append]
          congr 1
        · rw [if_neg hcp, if_neg hcp]
          have hstart := (partSubs subs b (p ++ [nm]) [] []
            (le_of_lt hsub) (by intro n; simp [toolNames])).1
          rw [hstart]
          rw [List.nil_append, List.nil_append]
    · rw [if_neg hguard, if_neg hguard]
      by_cases hp : p.isEmpty = true
      · rw [if_pos hp, if_pos hp]
        rfl
      · rw [if_neg hp, if_neg hp]
        by_cases hcp : (!((p ++ [nm]).filter (· ≠ b)).isEmpty) = true
        · rw [if_pos hcp, if_pos hcp]
          rfl
        · rw [if_neg hcp, if_neg hcp]
          rfl

theorem convert_eq_dedup (c : CliCommand) (b : String) (p : List String) :
    convertCommandToTools c b p = dedupToolsFrom [] (specToolCandidates c b p) :=
  (convert_dedup_aux (sizeOf c)).1 c b p le_rfl

theorem specToolCandidates_root (c : CliCommand) (b : String) :
    ∃ t rest, specToolCandidates c b [] = t :: rest ∧ t.name = b := by
  obtain ⟨nm, ds, subs, opts, args⟩ := c
  rw [specToolCandidates]
  by_cases hguard : (subs.length > 0 && ([] : List String).length < 10) = true
  · rw [if_pos hguard, if_pos (show ([] : List String).isEmpty = true from rfl)]
    exact ⟨_, _, rfl, rfl⟩
  · rw [if_neg hguard, if_pos (show ([] : List String).isEmpty = true from rfl)]
    exact ⟨_, _, rfl, rfl⟩

/-- C5: tool names from one synthesis run are pairwise distinct, and the
returned list is exactly the pre-order candidate list with every
later-duplicated name dropped entirely (first seen wins, no merging). -/
theorem convertCommandToTools_names_nodup_firstSeen (c : CliCommand) (b : String) :
    (toolNames (convertCommandToTools c b [])).Nodup ∧
      convertCommandToTools c b [] = dedupToolsFrom [] (specToolCandidates c b []) := by
  have h := convert_eq_dedup c b []
  refine ⟨?_, h⟩
  rw [h]
  exact (dedupToolsFrom_nodup _ _).1

/-- C4, amended: the first synthesized tool is always the root tool named
`baseCommandName` and no later tool carries that name; on the two-level tree
`root → sub → leaf` the tool names are exactly `root`, `sub`, `sub-leaf`.
(Unlike the original claim, nodes whose flattened name repeats an earlier
one, or that sit beyond the depth cap of 10, yield no tool.) -/
theorem convertCommandToTools_root_and_example :
    (∀ (c : CliCommand) (b : String),
      (∃ t, (convertCommandToTools c b []).head? = some t ∧ t.name = b) ∧
        ∀ t ∈ (convertCommandToTools c b []).tail, t.name ≠ b) ∧
      toolNames (convertCommandToTools
        (CliCommand.mk "root" "r"
          [CliCommand.mk "sub" "s" [CliCommand.mk "leaf" "l" [] [] []] [] []] [] [])
        "root" []) = ["root", "sub", "sub-leaf"] := by
  constructor
  · intro c b
    have h := convert_eq_dedup c b []
    obtain ⟨t, rest, hspec, hname⟩ := specToolCandidates_root c b
    have hded : dedupToolsFrom [] (t :: rest) = t :: dedupToolsFrom [t.name] rest := by
      rw [dedupToolsFrom, if_neg (by simp)]
    rw [h, hspec, hded]
    constructor
    · exact ⟨t, rfl, hname⟩
    · intro t' ht'
      have hmem : t'.name ∈ toolNames (dedupToolsFrom [t.name] rest) :=
        List.mem_map_of_mem McpTool.name ht'
      have hnot := (dedupToolsFrom_nodup rest [t.name]).2 t'.name hmem
      rw [hname] at hnot
      intro he
      exact hnot (by rw [he]; exact List.mem_singleton.mpr (hname.symm ▸ rfl))
  · rfl

/-- Closed instance of the amended C4: in a one-child tree the tail tool
(the `sub` tool) is not named after the base command. -/
theorem convertCommandToTools_root_witness :
    ({ name := "sub", description := "s",
       inputSchema := { properties := [], required := none } } : McpTool).name
      ≠ "root" :=
  (convertCommandToTools_root_and_example.1
    (CliCommand.mk "root" "r" [CliCommand.mk "sub" "s" [] [] []] [] []) "root").2
    _ (by decide)

/-- C4 counterexample: with two sibling nodes both named `sub`, only two
tools are produced (`root` and the first `sub`); the second `sub` node
yields no tool at all, so it is false that every non-root node yields a
tool named by its flattened path. -/
theorem convertCommandToTools_duplicate_counterexample :
    toolNames (convertCommandToTools
        (CliCommand.mk "root" "r"
          [CliCommand.mk "sub" "sub one" [] [] [],
           CliCommand.mk "sub" "sub two" [] [] []] [] []) "root" [])
      = ["root", "sub"] ∧ (["root", "sub"] : List String).length ≠ 3 := by
  exact ⟨rfl, by decide⟩

theorem commandHeight_eq (c : CliCommand) :
    commandHeight c = subsHeight c.subcommands := by
  obtain ⟨nm, ds, subs, opts, args⟩ := c
  rfl

theorem subsHeight_le {l : List CliCommand} {H : Nat}
    (h : ∀ m ∈ l, commandHeight m ≤ H) : subsHeight l ≤ H + 1 := by
  induction l with
  | nil => simp [subsHeight]
  | cons c rest ih =>
    rw [subsHeight]
    have h1 := h c (List.mem_cons_self _ _)
    have h2 := ih fun m hm => h m (List.mem_cons_of_mem _ hm)
    omega

theorem parseHelpText_height (ph : String → Option ParsedHelp)
    (helpText commandName : String) :
    commandHeight (parseHelpText ph helpText commandName) ≤ 1 := by
  rw [commandHeight_eq]
  have h : ∀ s ∈ (parseHelpText ph helpText commandName).subcommands,
      commandHeight s ≤ 0 := by
    intro s hs
    have := (parseHelpText_sub_props ph helpText commandName s hs).2
    rw [commandHeight_eq, this]
    exact le_refl 0
  exact subsHeight_le h

theorem validateCommandName_wsFree {n : String}
    (h : validateCommandName n = true) : wsFreeName n := by
  have hs := (validateCommandName_eq_spec n).mp h
  exact ⟨hs.1, hs.2.2.2.1⟩

theorem lookup_mem : ∀ (l : List (String × CliCommand)) (k : String)
    (v : CliCommand), l.lookup k = some v → (k, v) ∈ l := by
  intro l
  induction l with
  | nil => intro k v h; exact absurd h (by simp)
  | cons kv t ih =>
    intro k v h
    rw [List.lookup] at h
    cases hbeq : k == kv.1 with
    | true =>
      rw [hbeq] at h
      simp only [Option.some.injEq] at h
      subst h
      have hk : k = kv.1 := by simpa using hbeq
      rw [hk]
      exact List.mem_cons_self _ _
    | false =>
      rw [hbeq] at h
      exact List.mem_cons_of_mem _ (ih k v h)

theorem wsFree_no_space {n : String} (h : wsFreeName n) :
    ∀ c ∈ n.data, c ≠ ' ' := by
  intro c hc he
  have hx := h.2 c hc
  rw [he] at hx
  exact absurd hx (by decide)

theorem splitFirstSpace : ∀ (u v r s : List Char),
    (∀ c ∈ u, c ≠ ' ') → (∀ c ∈ v, c ≠ ' ') →
    u ++ ' ' :: r = v ++ ' ' :: s → u = v ∧ r = s := by
  intro u
  induction u with
  | nil =>
    intro v r s _ hv h
    match v with
    | [] => simpa using h
    | d :: v' =>
      rw [List.nil_append, List.cons_append] at h
      have hd := (List.cons.injEq _ _ _ _).mp h
      exact absurd hd.1.symm (hv d (List.mem_cons_self _ _))
  | cons a u' ih =>
    intro v r s hu hv h
    match v with
    | [] =>
      rw [List.cons_append, List.nil_append] at h
      have hd := (List.cons.injEq _ _ _ _).mp h
      exact absurd hd.1 (hu a (List.mem_cons_self _ _))
    | d :: v' =>
      rw [List.cons_append, List.cons_append] at h
      have hd := (List.cons.injEq _ _ _ _).mp h
      obtain ⟨huv, hrs⟩ := ih v' r s
        (fun c hc => hu c (List.mem_cons_of_mem _ hc))
        (fun c hc => hv c (List.mem_cons_of_mem _ hc)) hd.2
      exact ⟨by rw [hd.1, huv], hrs⟩

theorem data_eq_nil_iff {x : String} : x.data = [] ↔ x = "" := by
  constructor
  · intro h
    apply String.ext
    rw [h]
  · intro h
    rw [h]

theorem joinSpace_inj : ∀ (a1 a2 : List String),
    (∀ n ∈ a1, wsFreeName n) → (∀ n ∈ a2, wsFreeName n) →
    joinSepChars ' ' (a1.map String.data) = joinSepChars ' ' (a2.map String.data) →
    a1 = a2 := by
  intro a1
  induction a1 with
  | nil =>
    intro a2 _ hv2 h
    match a2 with
    | [] => rfl
    | x :: xs =>
      exfalso
      rw [List.map_nil, List.map_cons, joinSepChars, joinSepChars] at h
      have hx : x.data = [] := (List.append_eq_nil.mp h.symm).1
      exact (hv2 x (List.mem_cons_self _ _)).1 (data_eq_nil_iff.mp hx)
  | cons x xs ih =>
    intro a2 hv1 hv2 h
    match a2 with
    | [] =>
      exfalso
      rw [List.map_cons, List.map_nil, joinSepChars, joinSepChars] at h
      have hx : x.data = [] := (List.append_eq_nil.mp h).1
      exact (hv1 x (List.mem_cons_self _ _)).1 (data_eq_nil_iff.mp hx)
    | y :: ys =>
      rw [List.map_cons, List.map_cons, joinSepChars, joinSepChars] at h
      match xs, ys with
      | [], [] =>
        simp only [List.map_nil, joinSepTail, List.append_nil] at h
        rw [String.ext h]
      | [], z :: zs =>
        exfalso
        simp only [List.map_nil, List.map_cons, joinSepTail,
          List.append_nil] at h
        have hsp : ' ' ∈ x.data := by
          rw [h]
          exact List.mem_append_right _ (List.mem_cons_self _ _)
        exact wsFree_no_space (hv1 x (List.mem_cons_self _ _)) ' ' hsp rfl
      | w :: ws, [] =>
        exfalso
        simp only [List.map_cons, List.map_nil, joinSepTail,
          List.append_nil] at h
        have hsp : ' ' ∈ y.data := by
          rw [← h]
          exact List.mem_append_right _ (List.mem_cons_self _ _)
        exact wsFree_no_space (hv2 y (List.mem_cons_self _ _)) ' ' hsp rfl
      | w :: ws, z :: zs =>
        simp only [List.map_cons, joinSepTail] at h
        obtain ⟨h1, h2⟩ := splitFirstSpace x.data y.data _ _
          (wsFree_no_space (hv1 x (List.mem_cons_self _ _)))
          (wsFree_no_space (hv2 y (List.mem_cons_self _ _))) h
        have hxy : x = y := String.ext h1
        have htail := ih (z :: zs) (fun n hn => hv1 n (List.mem_cons_of_mem _ hn))
          (fun n hn => hv2 n (List.mem_cons_of_mem _ hn))
          (by simp only [List.map_cons, joinSepChars]
              exact h2)
        rw [hxy, htail]

theorem dropWhile_length_le (p : Char → Bool) : ∀ l : List Char,
    (l.dropWhile p).length ≤ l.length := by
  intro l
  induction l with
  | nil => simp
  | cons c t ih =>
    rw [List.dropWhile_cons]
    by_cases hc : p c = true
    · rw [if_pos hc]
      exact le_trans ih (by simp)
    · rw [if_neg hc]

theorem head?_append_left {A B : List Char} (h : A ≠ []) :
    (A ++ B).head? = A.head? := by
  match A with
  | [] => exact absurd rfl h
  | c :: t => simp

theorem data_ne_nil {x : String} (h : x ≠ "") : x.data ≠ [] :=
  fun hx => h (data_eq_nil_iff.mp hx)

theorem join_rev_head_nonws : ∀ (xs : List String) (x : String),
    wsFreeName x → (∀ n ∈ xs, wsFreeName n) →
    ∀ c, ((x.data ++ joinSepTail ' ' (xs.map String.data)).reverse).head? = some c →
      isJsWs c = false := by
  intro xs
  induction xs with
  | nil =>
    intro x hx _ c hc
    rw [List.map_nil, joinSepTail, List.append_nil] at hc
    have hmem : c ∈ x.data.reverse := by
      match hr : x.data.reverse with
      | [] => rw [hr] at hc; exact absurd hc (by simp)
      | d :: t => rw [hr] at hc; simp at hc; rw [hc] at hr ⊢; simp
    exact hx.2 c (List.mem_reverse.mp hmem)
  | cons y ys ih =>
    intro x hx hall c hc
    rw [List.map_cons, joinSepTail] at hc
    have hyne : (y.data ++ joinSepTail ' ' (ys.map String.data)).reverse ≠ [] := by
      simp only [ne_eq, List.reverse_eq_nil_iff, List.append_eq_nil, not_and]
      intro hy
      exact absurd hy (data_ne_nil (hall y (List.mem_cons_self _ _)).1)
    rw [show x.data ++ ' ' :: (y.data ++ joinSepTail ' ' (ys.map String.data))
        = (x.data ++ [' ']) ++ (y.data ++ joinSepTail ' ' (ys.map String.data)) by
      simp] at hc
    rw [List.reverse_append, head?_append_left hyne] at hc
    exact ih y (hall y (List.mem_cons_self _ _))
      (fun n hn => hall n (List.mem_cons_of_mem _ hn)) c hc

theorem join_head_nonws (x : String) (xs : List String) (hx : wsFreeName x) :
    ∀ c, (x.data ++ joinSepTail ' ' (xs.map String.data)).head? = some c →
      isJsWs c = false := by
  intro c hc
  have hne : x.data ≠ [] := data_ne_nil hx.1
  rw [head?_append_left hne] at hc
  match hd : x.data with
  | [] => exact absurd hd hne
  | d :: t =>
    rw [hd] at hc
    simp only [List.head?_cons, Option.some.injEq] at hc
    subst hc
    exact hx.2 _ (by rw [hd]; exact List.mem_cons_self _ _)

theorem dropWhile_eq_self_of_head {l : List Char}
    (h : ∀ c, l.head? = some c → isJsWs c = false) :
    l.dropWhile isJsWs = l := by
  match l with
  | [] => rfl
  | c :: t =>
    rw [List.dropWhile_cons, if_neg (by rw [h c rfl]; decide)]

theorem trim_concat (p J : List Char)
    (hhead : ∀ c, J.head? = some c → isJsWs c = false)
    (hlast : ∀ c, J.reverse.head? = some c → isJsWs c = false)
    (hne : J ≠ []) :
    jsTrimChars (p ++ J) = p.dropWhile isJsWs ++ J := by
  unfold jsTrimChars
  have h1 : (p ++ J).dropWhile isJsWs = p.dropWhile isJsWs ++ J := by
    rw [List.dropWhile_append]
    by_cases he : (p.dropWhile isJsWs).isEmpty = true
    · rw [if_pos he, dropWhile_eq_self_of_head hhead]
      rw [List.isEmpty_iff] at he
      rw [he, List.nil_append]
    · rw [if_neg he]
  rw [h1, List.reverse_append]
  have hrevne : J.reverse ≠ [] := by
    simpa [List.reverse_eq_nil_iff] using hne
  have h2 : (J.reverse ++ (p.dropWhile isJsWs).reverse).dropWhile isJsWs
      = J.reverse ++ (p.dropWhile isJsWs).reverse := by
    rw [List.dropWhile_append]
    rw [if_neg (by rw [dropWhile_eq_self_of_head hlast]; simpa [List.isEmpty_iff] using hrevne)]
    rw [dropWhile_eq_self_of_head hlast]
  rw [h2, List.reverse_append, List.reverse_reverse, List.reverse_reverse]

theorem discoverKey_data (c : String) (x : String) (xs : List String)
    (hx : wsFreeName x) (hall : ∀ n ∈ xs, wsFreeName n) :
    (discoverKey c (x :: xs)).data
      = (c.data ++ [' ']).dropWhile isJsWs
        ++ (x.data ++ joinSepTail ' ' (xs.map String.data)) := by
  show jsTrimChars (c.data ++ ' ' :: (spaceJoin (x :: xs)).data) = _
  have hsp : (spaceJoin (x :: xs)).data
      = x.data ++ joinSepTail ' ' (xs.map String.data) := rfl
  rw [hsp]
  rw [show c.data ++ ' ' :: (x.data ++ joinSepTail ' ' (xs.map String.data))
      = (c.data ++ [' ']) ++ (x.data ++ joinSepTail ' ' (xs.map String.data)) by
    simp]
  apply trim_concat
  · exact join_head_nonws x xs hx
  · exact join_rev_head_nonws xs x hx hall
  · simp only [ne_eq, List.append_eq_nil, not_and]
    intro hx'
    exact absurd hx' (data_ne_nil hx.1)

theorem discoverKey_inj (c : String) : ∀ (a1 a2 : List String),
    (∀ n ∈ a1, wsFreeName n) → (∀ n ∈ a2, wsFreeName n) →
    discoverKey c a1 = discoverKey c a2 → a1 = a2 := by
  have hlen : ∀ (x : String) (xs : List String), wsFreeName x →
      (∀ n ∈ xs, wsFreeName n) →
      (discoverKey c []).data.length < (discoverKey c (x :: xs)).data.length := by
    intro x xs hx hall
    rw [discoverKey_data c x xs hx hall]
    have h1 : (discoverKey c []).data.length
        ≤ ((c.data ++ [' ']).dropWhile isJsWs).length := by
      show (jsTrimChars (c.data ++ ' ' :: (spaceJoin []).data)).length ≤ _
      have : (spaceJoin []).data = [] := rfl
      rw [this]
      unfold jsTrimChars
      calc (((c.data ++ [' ']).dropWhile isJsWs).reverse.dropWhile
              isJsWs).reverse.length
          = (((c.data ++ [' ']).dropWhile isJsWs).reverse.dropWhile
              isJsWs).length := by rw [List.length_reverse]
        _ ≤ ((c.data ++ [' ']).dropWhile isJsWs).reverse.length :=
            dropWhile_length_le _ _
        _ = ((c.data ++ [' ']).dropWhile isJsWs).length := by
            rw [List.length_reverse]
    have h2 : 0 < (x.data ++ joinSepTail ' ' (xs.map String.data)).length := by
      rw [List.length_append]
      have := data_ne_nil hx.1
      have hx0 : 0 < x.data.length := List.length_pos.mpr this
      omega
    rw [List.length_append]
    omega
  intro a1 a2 hv1 hv2 h
  match a1, a2 with
  | [], [] => rfl
  | [], x :: xs =>
    exfalso
    have := hlen x xs (hv2 x (List.mem_cons_self _ _))
      (fun n hn => hv2 n (List.mem_cons_of_mem _ hn))
    rw [h] at this
    omega
  | x :: xs, [] =>
    exfalso
    have := hlen x xs (hv1 x (List.mem_cons_self _ _))
      (fun n hn => hv1 n (List.mem_cons_of_mem _ hn))
    rw [← h] at this
    omega
  | x :: xs, y :: ys =>
    have hd1 := discoverKey_data c x xs (hv1 x (List.mem_cons_self _ _))
      (fun n hn => hv1 n (List.mem_cons_of_mem _ hn))
    have hd2 := discoverKey_data c y ys (hv2 y (List.mem_cons_self _ _))
      (fun n hn => hv2 n (List.mem_cons_of_mem _ hn))
    have hdata : (discoverKey c (x :: xs)).data = (discoverKey c (y :: ys)).data := by
      rw [h]
    rw [hd1, hd2] at hdata
    have hJ := List.append_cancel_left hdata
    exact joinSpace_inj (x :: xs) (y :: ys) hv1 hv2
      (by rw [List.map_cons, List.map_cons, joinSepChars, joinSepChars]
          exact hJ)

theorem defaultNode_height (command : String) (args : List String) :
    commandHeight (defaultNode command args) = 0 := rfl

theorem mergeStub_height (stub sp : CliCommand) :
    commandHeight (mergeStub stub sp) = commandHeight sp := by
  rw [commandHeight_eq sp]
  rfl

theorem withSubcommands_height (c : CliCommand) (l : List CliCommand) :
    commandHeight (withSubcommands c l) = subsHeight l := rfl

theorem parseHelpText_stub_wsFree (ph : String → Option ParsedHelp)
    (helpText commandName : String) :
    ∀ sub ∈ (parseHelpText ph helpText commandName).subcommands,
      wsFreeName sub.name :=
  fun sub h => validateCommandName_wsFree
    (parseHelpText_sub_props ph helpText commandName sub h).1


theorem expandSubs_bound (maxDepth : Nat) (command : String)
    (next : List String → List (String × CliCommand) →
      CliCommand × List (String × CliCommand))
    (args2 : List String) (depth2 : Nat)
    (hnext : ∀ (a : List String) (m : List (String × CliCommand)),
      (∀ n ∈ a, wsFreeName n) → a.length = depth2 + 1 →
      (∀ kv ∈ m, ∀ args' : List String, (∀ n ∈ args', wsFreeName n) →
        kv.1 = discoverKey command args' →
        commandHeight kv.2 ≤ maxDepth + 1 - args'.length) →
      commandHeight (next a m).1 ≤ maxDepth + 1 - (depth2 + 1) ∧
      (∀ kv ∈ (next a m).2, ∀ args' : List String,
        (∀ n ∈ args', wsFreeName n) → kv.1 = discoverKey command args' →
        commandHeight kv.2 ≤ maxDepth + 1 - args'.length))
    (hargs2 : ∀ n ∈ args2, wsFreeName n) (hlen2 : args2.length = depth2) :
    ∀ (stubs : List CliCommand) (memo2 : List (String × CliCommand)),
      (∀ s ∈ stubs, wsFreeName s.name) →
      (∀ kv ∈ memo2, ∀ args' : List String, (∀ n ∈ args', wsFreeName n) →
        kv.1 = discoverKey command args' →
        commandHeight kv.2 ≤ maxDepth + 1 - args'.length) →
      (∀ m ∈ (expandSubs next args2 stubs memo2).1,
        commandHeight m ≤ maxDepth - depth2) ∧
      (∀ kv ∈ (expandSubs next args2 stubs memo2).2,
        ∀ args' : List String, (∀ n ∈ args', wsFreeName n) →
        kv.1 = discoverKey command args' →
        commandHeight kv.2 ≤ maxDepth + 1 - args'.length) := by
  intro stubs
  induction stubs with
  | nil =>
    intro memo2 _ hinv2
    rw [expandSubs]
    exact ⟨by intro m hm; exact absurd hm (by simp), hinv2⟩
  | cons stub rest ihs =>
    intro memo2 hstubs hinv2
    rw [expandSubs]
    dsimp only
    have hargs3 : ∀ n ∈ args2 ++ [stub.name], wsFreeName n := by
      intro n hn
      rcases List.mem_append.mp hn with hn | hn
      · exact hargs2 n hn
      · rw [List.mem_singleton.mp hn]
        exact hstubs stub (List.mem_cons_self _ _)
    have hlen3 : (args2 ++ [stub.name]).length = depth2 + 1 := by
      rw [List.length_append, hlen2]
      rfl
    have hgo := hnext (args2 ++ [stub.name]) memo2 hargs3 hlen3 hinv2
    have htail := ihs ((next (args2 ++ [stub.name]) memo2).2)
      (fun s hs => hstubs s (List.mem_cons_of_mem _ hs)) hgo.2
    constructor
    · intro m hm
      rcases List.mem_cons.mp hm with hm | hm
      · rw [hm, mergeStub_height]
        have := hgo.1
        omega
      · exact htail.1 m hm
    · exact htail.2

theorem discoverGo_bound (help : String → List String → Option String)
    (ph : String → Option ParsedHelp) (maxDepth : Nat) (command : String) :
    ∀ fuel : Nat, ∀ (args : List String) (depth : Nat)
        (memo : List (String × CliCommand)),
      (∀ n ∈ args, wsFreeName n) → args.length = depth →
      (∀ kv ∈ memo, ∀ args' : List String, (∀ n ∈ args', wsFreeName n) →
        kv.1 = discoverKey command args' →
        commandHeight kv.2 ≤ maxDepth + 1 - args'.length) →
      commandHeight (discoverGo help ph maxDepth fuel command args depth memo).1
          ≤ maxDepth + 1 - depth ∧
      (∀ kv ∈ (discoverGo help ph maxDepth fuel command args depth memo).2,
        ∀ args' : List String, (∀ n ∈ args', wsFreeName n) →
        kv.1 = discoverKey command args' →
        commandHeight kv.2 ≤ maxDepth + 1 - args'.length) := by
  intro fuel
  induction fuel with
  | zero =>
    intro args depth memo _ _ hinv
    rw [discoverGo]
    exact ⟨by rw [defaultNode_height]; omega, hinv⟩
  | succ fuel ih =>
    intro args depth memo hargs hlen hinv
    rw [discoverGo]
    dsimp only
    cases hlk : List.lookup (discoverKey command args) memo with
    | some v =>
      dsimp only
      refine ⟨?_, hinv⟩
      have hm := lookup_mem memo (discoverKey command args) v hlk
      have hb := hinv (discoverKey command args, v) hm args hargs rfl
      rw [hlen] at hb
      exact hb
    | none =>
      dsimp only
      by_cases hdep : depth > maxDepth
      · rw [if_pos hdep]
        exact ⟨by rw [defaultNode_height]; omega, hinv⟩
      · rw [if_neg hdep]
        have hdle : depth ≤ maxDepth := Nat.le_of_not_lt hdep
        cases hhelp : help command args with
        | none =>
          dsimp only
          exact ⟨by rw [defaultNode_height]; omega, hinv⟩
        | some text =>
          dsimp only
          have hinv1 : ∀ node : CliCommand,
              commandHeight node ≤ maxDepth + 1 - depth →
              ∀ memoX : List (String × CliCommand),
              (∀ kv ∈ memoX, ∀ args' : List String,
                (∀ n ∈ args', wsFreeName n) →
                kv.1 = discoverKey command args' →
                commandHeight kv.2 ≤ maxDepth + 1 - args'.length) →
              (∀ kv ∈ (discoverKey command args, node) :: memoX,
                ∀ args' : List String, (∀ n ∈ args', wsFreeName n) →
                kv.1 = discoverKey command args' →
                commandHeight kv.2 ≤ maxDepth + 1 - args'.length) := by
            intro node hnode memoX hinvX kv hkv args' hv' hkey
            rcases List.mem_cons.mp hkv with hkv | hkv
            · subst hkv
              have heq : args = args' :=
                discoverKey_inj command args args' hargs hv' hkey
              rw [← heq, hlen]
              exact hnode
            · exact hinvX kv hkv args' hv' hkey
          have hparsedH : ∀ cname : String,
              commandHeight (parseHelpText ph text cname) ≤ maxDepth + 1 - depth := by
            intro cname
            have := parseHelpText_height ph text cname
            omega
          by_cases hlt : depth < maxDepth
          · rw [if_pos hlt]
            dsimp only
            have hnext : ∀ (a : List String) (m : List (String × CliCommand)),
                (∀ n ∈ a, wsFreeName n) → a.length = depth + 1 →
                (∀ kv ∈ m, ∀ args' : List String, (∀ n ∈ args', wsFreeName n) →
                  kv.1 = discoverKey command args' →
                  commandHeight kv.2 ≤ maxDepth + 1 - args'.length) →
                commandHeight
                    (discoverGo help ph maxDepth fuel command a (depth + 1) m).1
                  ≤ maxDepth + 1 - (depth + 1) ∧
                (∀ kv ∈ (discoverGo help ph maxDepth fuel command a (depth + 1) m).2,
                  ∀ args' : List String, (∀ n ∈ args', wsFreeName n) →
                  kv.1 = discoverKey command args' →
                  commandHeight kv.2 ≤ maxDepth + 1 - args'.length) :=
              fun a m ha hl hm => ih a (depth + 1) m ha hl hm
            have hE := expandSubs_bound maxDepth command
              (fun a m => discoverGo help ph maxDepth fuel command a (depth + 1) m)
              args depth hnext hargs hlen
              (parseHelpText ph text
                (if depth = 0 then command
                 else match args.getLast? with
                   | some s => if s = "" then command else s
                   | none => command)).subcommands
              ((discoverKey command args,
                parseHelpText ph text
                  (if depth = 0 then command
                   else match args.getLast? with
                     | some s => if s = "" then command else s
                     | none => command)) :: memo)
              (fun s hs => validateCommandName_wsFree
                (parseHelpText_sub_props ph text _ s hs).1)
              (hinv1 _ (hparsedH _) memo hinv)
            constructor
            · rw [withSubcommands_height]
              have hsub := subsHeight_le hE.1
              omega
            · apply hinv1
              · rw [withSubcommands_height]
                have hsub := subsHeight_le hE.1
                omega
              · exact hE.2
          · rw [if_neg hlt]
            exact ⟨hparsedH _, hinv1 _ (hparsedH _) memo hinv⟩

theorem discoverAllCommands_height (help : String → List String → Option String)
    (ph : String → Option ParsedHelp) (baseCommand : String) (maxDepth : Nat) :
    commandHeight (discoverAllCommands help ph baseCommand maxDepth)
      ≤ maxDepth + 1 := by
  have h := discoverGo_bound help ph maxDepth baseCommand (maxDepth + 1) [] 0 []
    (by simp) rfl (by simp)
  simpa using h.1

/-- C3 as amended: discovery with `maxDepth = 2` never returns a node whose
path length from the root exceeds 3 = maxDepth + 1; the subcommand stubs
parsed at depth 2 are kept unexpanded at path length 3. -/
theorem discoverAllCommands_maxDepth_two_bound
    (help : String → List String → Option String)
    (ph : String → Option ParsedHelp) (baseCommand : String) :
    commandHeight (discoverAllCommands help ph baseCommand 2) ≤ 3 :=
  discoverAllCommands_height help ph baseCommand 2

/-- C3 counterexample: with help text that always lists one subcommand,
discovery at `maxDepth = 2` returns a tree containing a node at path length
3 (the stub parsed at depth 2), so the claimed bound of 2 fails. -/
theorem discoverAllCommands_depth_counterexample :
    commandHeight (discoverAllCommands
        (fun _ _ => some "Commands:\n  sub  A subcommand")
        (fun _ => none) "tool" 2) = 3 ∧ ¬(3 ≤ 2) := by
  exact ⟨by rfl, by decide⟩
